import Mathlib

/-!
Verification of the RAG backend (chunking, embedding batching, session-scoped
document store, quiz answer cache, JSON repair parsing, chat context assembly)
against its natural-language specification.  Python functions are shallowly
embedded as executable Lean definitions; external network calls (the language
model, the embedding provider, the vector database RPC) are abstracted as
function parameters or as the already-obtained results of those calls.
-/

/-- JSON values as produced by the model responses that the backend parses.
Numbers are modelled as integers: the quiz and flashcard payloads the backend
consumes only ever carry integer numerals (fractional numerals are outside
this model and are rejected by the embedded parser). -/
inductive Json where
  | null : Json
  | bool (b : Bool) : Json
  | num (n : Int) : Json
  | str (s : String) : Json
  | arr (elems : List Json) : Json
  | obj (fields : List (String × Json)) : Json

mutual

/-- Structural boolean equality on `Json`. -/
def Json.beq : Json → Json → Bool
  | Json.null, Json.null => true
  | Json.bool a, Json.bool b => a == b
  | Json.num a, Json.num b => a == b
  | Json.str a, Json.str b => a == b
  | Json.arr a, Json.arr b => Json.beqList a b
  | Json.obj a, Json.obj b => Json.beqFields a b
  | _, _ => false

/-- Elementwise `Json.beq` on lists. -/
def Json.beqList : List Json → List Json → Bool
  | [], [] => true
  | a :: as, b :: bs => Json.beq a b && Json.beqList as bs
  | _, _ => false

/-- Elementwise `Json.beq` on association lists. -/
def Json.beqFields : List (String × Json) → List (String × Json) → Bool
  | [], [] => true
  | (k, v) :: as, (k2, v2) :: bs => k == k2 && Json.beq v v2 && Json.beqFields as bs
  | _, _ => false

end

theorem Json.beqList_iff (as bs : List Json)
    (ih : ∀ a ∈ as, ∀ b, Json.beq a b = true ↔ a = b) :
    Json.beqList as bs = true ↔ as = bs := by
  induction as generalizing bs with
  | nil => cases bs <;> simp [Json.beqList]
  | cons a as tail_ih =>
    cases bs with
    | nil => simp [Json.beqList]
    | cons b bs =>
      simp only [Json.beqList, Bool.and_eq_true, List.cons.injEq]
      rw [ih a (by simp), tail_ih bs (fun x hx => ih x (by simp [hx]))]

theorem Json.beqFields_iff (as bs : List (String × Json))
    (ih : ∀ p ∈ as, ∀ b, Json.beq p.2 b = true ↔ p.2 = b) :
    Json.beqFields as bs = true ↔ as = bs := by
  induction as generalizing bs with
  | nil => cases bs <;> simp [Json.beqFields]
  | cons a as tail_ih =>
    cases bs with
    | nil => simp [Json.beqFields]
    | cons b bs =>
      obtain ⟨k, v⟩ := a
      obtain ⟨k2, v2⟩ := b
      simp only [Json.beqFields, Bool.and_eq_true, List.cons.injEq, Prod.mk.injEq,
        beq_iff_eq]
      rw [ih (k, v) (by simp), tail_ih bs (fun x hx => ih x (by simp [hx]))]
      try tauto

theorem Json.beq_iff : ∀ a b : Json, Json.beq a b = true ↔ a = b := by
  have H : ∀ n : Nat, ∀ a : Json, sizeOf a ≤ n → ∀ b, Json.beq a b = true ↔ a = b := by
    intro n
    induction n with
    | zero =>
      intro a ha
      cases a <;> simp_all
    | succ n ih =>
      intro a ha b
      cases a with
      | null => cases b <;> simp [Json.beq]
      | bool x => cases b <;> simp [Json.beq]
      | num x => cases b <;> simp [Json.beq]
      | str x => cases b <;> simp [Json.beq]
      | arr as =>
        cases b with
        | arr bs =>
          simp only [Json.beq, Json.arr.injEq]
          refine Json.beqList_iff as bs fun x hx b => ih x ?_ b
          have hlt : sizeOf x < sizeOf as := List.sizeOf_lt_of_mem hx
          have : sizeOf (Json.arr as) = 1 + sizeOf as := by simp
          omega
        | null => simp [Json.beq]
        | bool _ => simp [Json.beq]
        | num _ => simp [Json.beq]
        | str _ => simp [Json.beq]
        | obj _ => simp [Json.beq]
      | obj fs =>
        cases b with
        | obj gs =>
          simp only [Json.beq, Json.obj.injEq]
          refine Json.beqFields_iff fs gs fun p hp b => ih p.2 ?_ b
          have hlt : sizeOf p < sizeOf fs := List.sizeOf_lt_of_mem hp
          have hv : sizeOf p.2 < sizeOf p := by
            obtain ⟨k, v⟩ := p
            simp
          have : sizeOf (Json.obj fs) = 1 + sizeOf fs := by simp
          omega
        | null => simp [Json.beq]
        | bool _ => simp [Json.beq]
        | num _ => simp [Json.beq]
        | str _ => simp [Json.beq]
        | arr _ => simp [Json.beq]
  exact fun a b => H (sizeOf a) a (Nat.le_refl _) b

instance : DecidableEq Json := fun a b => decidable_of_iff _ (Json.beq_iff a b)

/-- Whether a JSON value is an object, i.e. satisfies Python `isinstance(q, dict)`. -/
def Json.isObj : Json → Bool
  | .obj _ => true
  | _ => false

/-- Whether a JSON value is an array, i.e. satisfies Python `isinstance(v, list)`. -/
def Json.isArr : Json → Bool
  | .arr _ => true
  | _ => false

/-- Python `d.get(key, default)` on a dict modelled as an association list. -/
def jGetD (kvs : List (String × Json)) (k : String) (d : Json) : Json :=
  (kvs.lookup k).getD d

/-- Python whitespace test used by `str.strip` (ASCII fragment). -/
def pyWs (c : Char) : Bool :=
  c == ' ' || c == '\t' || c == '\n' || c == '\r' || c == '\x0b' || c == '\x0c'

/-- Python `str.strip()` on the character list: drop whitespace from both ends. -/
def stripChars (cs : List Char) : List Char :=
  List.rdropWhile pyWs (cs.dropWhile pyWs)

/-- Python `str.strip()`. -/
def pyStrip (s : String) : String :=
  String.mk (stripChars s.toList)

theorem stripChars_idem (cs : List Char) : stripChars (stripChars cs) = stripChars cs := by
  unfold stripChars
  set x := cs.dropWhile pyWs with hx
  have hxx : x.dropWhile pyWs = x := by rw [hx]; exact List.dropWhile_idempotent pyWs cs
  have hpre : List.rdropWhile pyWs x <+: x := List.rdropWhile_prefix pyWs x
  have hywd : (List.rdropWhile pyWs x).dropWhile pyWs = List.rdropWhile pyWs x := by
    cases hyy : List.rdropWhile pyWs x with
    | nil => rfl
    | cons a t =>
      rw [hyy] at hpre
      obtain ⟨u, hu⟩ := hpre
      have hxa : x = a :: (t ++ u) := by rw [← hu]; simp
      have hxhead : pyWs a = false := by
        by_contra hpa
        simp only [Bool.not_eq_false] at hpa
        rw [hxa] at hxx
        simp only [List.dropWhile_cons, hpa, if_true] at hxx
        have hlen : (List.dropWhile pyWs (t ++ u)).length = (t ++ u).length + 1 := by
          rw [hxx]; simp
        have hsub : List.dropWhile pyWs (t ++ u) <:+ (t ++ u) := List.dropWhile_suffix pyWs
        have := hsub.length_le
        omega
      simp [List.dropWhile_cons, hxhead]
  rw [hywd]
  exact List.rdropWhile_idempotent pyWs x

theorem pyStrip_idem (s : String) : pyStrip (pyStrip s) = pyStrip s := by
  unfold pyStrip
  rw [show (String.mk (stripChars s.toList)).toList = stripChars s.toList from rfl,
    stripChars_idem]

/-- `chunk_text` from `services/chunking.py`, parameterised by the library
text splitter (`RecursiveCharacterTextSplitter.split_text`, an external
collaborator): keep only the stripped pieces whose length exceeds 50. -/
def chunk_text (split : String → List String) (text : String) : List String :=
  (split text).filterMap fun c =>
    if 50 < (pyStrip c).length then some (pyStrip c) else none

/-- C4: every chunk returned by `chunk_text` has trimmed length strictly
greater than 50 characters, and an input none of whose split pieces exceeds
that threshold yields the empty sequence. -/
theorem chunk_text_spec (split : String → List String) (text : String) :
    (∀ c ∈ chunk_text split text, 50 < (pyStrip c).length) ∧
    ((∀ p ∈ split text, (pyStrip p).length ≤ 50) → chunk_text split text = []) := by
  constructor
  · intro c hc
    rcases List.mem_filterMap.mp hc with ⟨p, _, hp⟩
    by_cases h : 50 < (pyStrip p).length
    · simp only [h, if_true, Option.some.injEq] at hp
      rw [← hp, pyStrip_idem]
      exact h
    · simp [h] at hp
  · intro h
    unfold chunk_text
    rw [List.filterMap_eq_nil_iff]
    intro p hp
    simp [Nat.not_lt.mpr (h p hp)]

/-- A 60-character piece used to instantiate `chunk_text_spec` concretely. -/
def longPiece : String := String.mk (List.replicate 60 'a')

/-- Witness for C4: a splitter yielding one long and one short piece keeps
exactly the long one, and an all-short splitter yields the empty list. -/
theorem chunk_text_spec_witness :
    50 < (pyStrip longPiece).length ∧
    chunk_text (fun _ => ["tiny"]) "doc" = [] := by
  constructor
  · exact (chunk_text_spec (fun _ => [longPiece, "tiny"]) "doc").1 longPiece (by decide)
  · exact (chunk_text_spec (fun _ => ["tiny"]) "doc").2 (by decide)

/-- Python dict assignment `m[k] = v` on an association-list model of a dict. -/
def dictSet (m : List (String × β)) (k : String) (v : β) : List (String × β) :=
  (k, v) :: m.filter fun p => !(p.1 == k)

/-- Python `del m[k]` (guarded by `if k in m`): remove every binding of `k`. -/
def dictDel (m : List (String × β)) (k : String) : List (String × β) :=
  m.filter fun p => !(p.1 == k)

theorem lookup_filter_out (m : List (String × β)) (k k' : String) (h : k' ≠ k) :
    (m.filter fun p => !(p.1 == k)).lookup k' = m.lookup k' := by
  induction m with
  | nil => rfl
  | cons a m ih =>
    by_cases ha : a.1 = k
    · have h1 : (a.1 == k) = true := beq_iff_eq.mpr ha
      have h2 : (k' == a.1) = false := by
        rw [beq_eq_false_iff_ne]
        rw [ha]
        exact h
      simp [List.filter_cons, h1, List.lookup, h2, ih]
    · have h1 : (a.1 == k) = false := beq_eq_false_iff_ne.mpr ha
      simp only [List.filter_cons, h1, Bool.not_false, if_true]
      obtain ⟨a1, a2⟩ := a
      simp only [List.lookup]
      cases hk : k' == a1
      · simp [ih]
      · simp

theorem lookup_filter_self (m : List (String × β)) (k : String) :
    (m.filter fun p => !(p.1 == k)).lookup k = none := by
  induction m with
  | nil => rfl
  | cons a m ih =>
    by_cases ha : a.1 = k
    · have h1 : (a.1 == k) = true := beq_iff_eq.mpr ha
      simp [List.filter_cons, h1, ih]
    · have h1 : (a.1 == k) = false := beq_eq_false_iff_ne.mpr ha
      have h2 : (k == a.1) = false := by
        rw [beq_eq_false_iff_ne]
        exact fun hh => ha hh.symm
      obtain ⟨a1, a2⟩ := a
      simp only [List.filter_cons] at *
      simp only [h1, Bool.not_false, if_true, List.lookup, h2, ih]

theorem dictSet_lookup_self (m : List (String × β)) (k : String) (v : β) :
    (dictSet m k v).lookup k = some v := by
  simp [dictSet, List.lookup]

theorem dictSet_lookup_ne (m : List (String × β)) (k k' : String) (v : β) (h : k' ≠ k) :
    (dictSet m k v).lookup k' = m.lookup k' := by
  have h2 : (k' == k) = false := beq_eq_false_iff_ne.mpr h
  simp [dictSet, List.lookup, h2, lookup_filter_out m k k' h]

theorem dictDel_lookup_self (m : List (String × β)) (k : String) :
    (dictDel m k).lookup k = none := lookup_filter_self m k

theorem dictDel_lookup_ne (m : List (String × β)) (k k' : String) (h : k' ≠ k) :
    (dictDel m k).lookup k' = m.lookup k' := lookup_filter_out m k k' h

/-- The module-level answer caches of `services/vector_store.py`:
`_quiz_answer_cache` and `_explanation_cache`, keyed by session id. -/
structure AnswerCache where
  answers : List (String × List Int)
  explanations : List (String × List String)
deriving DecidableEq

/-- `cache_quiz_answers` from `services/vector_store.py`. -/
def cache_quiz_answers (c : AnswerCache) (session_id : String)
    (correct_indices : List Int) (explanations : List String) : AnswerCache :=
  { answers := dictSet c.answers session_id correct_indices,
    explanations := dictSet c.explanations session_id explanations }

/-- Python list indexing `xs[i]` with negative-index wraparound;
`none` models an `IndexError`. -/
def pyListGet (xs : List α) (i : Int) : Option α :=
  if 0 ≤ i then xs.get? i.toNat
  else if 0 ≤ i + xs.length then xs.get? (i + xs.length).toNat
  else none

/-- `get_cached_answer` from `services/vector_store.py`.  The outer `none`
models an uncaught exception (negative index past the front, or an
explanation cache out of sync); `some none` is the function returning
Python `None`; `some (some (ci, ex))` is a successful lookup. -/
def get_cached_answer (c : AnswerCache) (session_id : String) (question_index : Int) :
    Option (Option (Int × String)) :=
  match c.answers.lookup session_id with
  | none => some none
  | some indices =>
    if (indices.length : Int) ≤ question_index then some none
    else
      match c.explanations.lookup session_id with
      | none => none
      | some exps =>
        match pyListGet indices question_index, pyListGet exps question_index with
        | some ci, some e => some (some (ci, e))
        | _, _ => none

/-- Response model of the `/check-answer` endpoint (`models.py`). -/
structure CheckAnswerResponse where
  correct : Bool
  correct_index : Int
  explanation : String
deriving DecidableEq

/-- The `/check-answer` endpoint from `main.py`: `Except.error ()` models the
HTTP 404 raised when `get_cached_answer` returns `None`. -/
def check_answer (c : AnswerCache) (session_id : String)
    (question_index selected_index : Int) : Option (Except Unit CheckAnswerResponse) :=
  match get_cached_answer c session_id question_index with
  | none => none
  | some none => some (Except.error ())
  | some (some (ci, ex)) =>
      some (Except.ok ⟨selected_index == ci, ci, ex⟩)

/-- Reachable cache states: whenever a session has cached correct indices it
also has cached explanations of the same length (every writer updates the two
dicts together). -/
def CacheWF (c : AnswerCache) : Prop :=
  ∀ sid cis, c.answers.lookup sid = some cis →
    ∃ exs, c.explanations.lookup sid = some exs ∧ exs.length = cis.length

theorem cacheWF_cache_quiz_answers (c : AnswerCache) (sid : String)
    (cis : List Int) (exs : List String) (hwf : CacheWF c) (hlen : exs.length = cis.length) :
    CacheWF (cache_quiz_answers c sid cis exs) := by
  intro sid' cis' h
  by_cases hs : sid' = sid
  · subst hs
    rw [cache_quiz_answers] at h
    simp only [dictSet_lookup_self] at h
    cases h
    exact ⟨exs, dictSet_lookup_self _ _ _, hlen⟩
  · rw [cache_quiz_answers] at h
    simp only [dictSet_lookup_ne _ _ _ _ hs] at h
    obtain ⟨exs', h1, h2⟩ := hwf sid' cis' h
    exact ⟨exs', by rw [cache_quiz_answers]; simpa [dictSet_lookup_ne _ _ _ _ hs], h2⟩

theorem pyListGet_nonneg (xs : List α) (i : Int) (h : 0 ≤ i) :
    pyListGet xs i = xs.get? i.toNat := by
  simp [pyListGet, h]

/-- Counterexample cache: one quiz question with correct index 2. -/
def cacheOneQuestion : AnswerCache := cache_quiz_answers ⟨[], []⟩ "s" [2] ["why"]

/-- C2 counterexample: with one cached question, question index `-1` is not
the index of any cached question, yet `/check-answer` answers it (revealing
the last question's answer) instead of returning the not-found condition. -/
theorem check_answer_spec_counterexample :
    check_answer cacheOneQuestion "s" (-1) 2 = some (Except.ok ⟨true, 2, "why"⟩) ∧
    check_answer cacheOneQuestion "s" (-1) 2 ≠ some (Except.error ()) := by
  constructor
  · rfl
  · intro h
    rw [show check_answer cacheOneQuestion "s" (-1) 2
        = some (Except.ok ⟨true, 2, "why"⟩) from rfl] at h
    injection h with h2
    exact Except.noConfusion h2

/-- C2 (amended to non-negative question indices): on a well-formed cache and
for `0 ≤ question_index`, `/check-answer` returns the not-found condition
exactly when the session has no cached quiz or the index is past the cached
questions, and otherwise answers with `correct = true` iff the selected index
equals the cached correct index. -/
theorem check_answer_spec (c : AnswerCache) (sid : String) (qi si : Int)
    (hwf : CacheWF c) (hqi : 0 ≤ qi) :
    (check_answer c sid qi si = some (Except.error ()) ↔
      ∀ cis, c.answers.lookup sid = some cis → (cis.length : Int) ≤ qi) ∧
    (∀ cis ci, c.answers.lookup sid = some cis → cis.get? qi.toNat = some ci →
      ∃ ex, check_answer c sid qi si = some (Except.ok ⟨si == ci, ci, ex⟩) ∧
        ((si == ci) = true ↔ si = ci)) := by
  cases hl : c.answers.lookup sid with
  | none =>
    constructor
    · constructor
      · intro _ cis hcis
        exact Option.noConfusion hcis
      · intro _
        simp only [check_answer, get_cached_answer, hl]
    · intro cis ci hcis
      exact Option.noConfusion hcis
  | some cis =>
    obtain ⟨exs, hexs, hlen⟩ := hwf sid cis hl
    by_cases hle : (cis.length : Int) ≤ qi
    · constructor
      · constructor
        · intro _ cis' hcis'
          injection hcis' with h2
          subst h2
          exact hle
        · intro _
          simp only [check_answer, get_cached_answer, hl, hle, if_true]
      · intro cis' ci hcis' hget
        injection hcis' with h2
        subst h2
        have hlt : qi.toNat < cis.length := by
          by_contra hcon
          rw [List.get?_eq_none.mpr (by omega)] at hget
          exact Option.noConfusion hget
        omega
    · have hqlt : qi.toNat < cis.length := by omega
      obtain ⟨ci0, hci0⟩ : ∃ x, cis.get? qi.toNat = some x := by
        cases hg : cis.get? qi.toNat with
        | none =>
          have := List.get?_eq_none.mp hg
          omega
        | some x => exact ⟨x, rfl⟩
      obtain ⟨ex0, hex0⟩ : ∃ x, exs.get? qi.toNat = some x := by
        cases hg : exs.get? qi.toNat with
        | none =>
          have := List.get?_eq_none.mp hg
          omega
        | some x => exact ⟨x, rfl⟩
      have hrun : check_answer c sid qi si = some (Except.ok ⟨si == ci0, ci0, ex0⟩) := by
        simp only [check_answer, get_cached_answer, hl, hle, if_false, hexs,
          pyListGet_nonneg _ _ hqi, hci0, hex0]
      constructor
      · rw [hrun]
        constructor
        · intro h
          injection h with h2
          exact Except.noConfusion h2
        · intro h
          have := h cis rfl
          omega
      · intro cis' ci hcis' hget
        injection hcis' with h2
        subst h2
        rw [hci0] at hget
        injection hget with h3
        subst h3
        exact ⟨ex0, hrun, beq_iff_eq⟩

/-- Witness cache for the amended C2 theorem: two cached questions. -/
def cacheTwoQuestions : AnswerCache :=
  ⟨[("s", [3, 1])], [("s", ["first why", "second why"])]⟩

theorem cacheTwoQuestions_wf : CacheWF cacheTwoQuestions := by
  intro sid cis h
  simp only [cacheTwoQuestions, List.lookup] at h
  cases hs : (sid == "s") with
  | false =>
    rw [hs] at h
    exact Option.noConfusion h
  | true =>
    rw [hs] at h
    injection h with h2
    subst h2
    exact ⟨["first why", "second why"], by simp [cacheTwoQuestions, List.lookup, hs], rfl⟩

/-- Witness for C2: on the concrete two-question cache, index 5 yields the
not-found condition and index 1 yields a correct verdict for selection 1. -/
theorem check_answer_spec_witness :
    check_answer cacheTwoQuestions "s" 5 0 = some (Except.error ()) ∧
    (∃ ex, check_answer cacheTwoQuestions "s" 1 1 = some (Except.ok ⟨(1 : Int) == 1, 1, ex⟩) ∧
      (((1 : Int) == 1) = true ↔ (1 : Int) = 1)) := by
  constructor
  · refine (check_answer_spec cacheTwoQuestions "s" 5 0 cacheTwoQuestions_wf (by omega)).1.mpr ?_
    intro cis h
    rw [show cacheTwoQuestions.answers.lookup "s" = some [3, 1] from rfl] at h
    injection h with h2
    subst h2
    decide
  · exact (check_answer_spec cacheTwoQuestions "s" 1 1 cacheTwoQuestions_wf (by omega)).2
      [3, 1] 1 rfl rfl

/-- C10: for a session whose cached quiz has `n` questions and any
`-n ≤ question_index ≤ -1`, `get_cached_answer` resolves the Python negative
index to position `n + question_index` instead of a not-found condition, and
`/check-answer` consequently answers (revealing the cached answer). -/
theorem get_cached_answer_negative_index (c : AnswerCache) (sid : String)
    (cis : List Int) (exs : List String) (qi : Int)
    (hc : c.answers.lookup sid = some cis) (he : c.explanations.lookup sid = some exs)
    (hlen : exs.length = cis.length)
    (h1 : -(cis.length : Int) ≤ qi) (h2 : qi ≤ -1) :
    ∃ ci ex, cis.get? (qi + (cis.length : Int)).toNat = some ci ∧
      exs.get? (qi + (cis.length : Int)).toNat = some ex ∧
      get_cached_answer c sid qi = some (some (ci, ex)) ∧
      ∀ si, check_answer c sid qi si = some (Except.ok ⟨si == ci, ci, ex⟩) := by
  have hneg : ¬ 0 ≤ qi := by omega
  have hidx : 0 ≤ qi + (cis.length : Int) := by omega
  have hidx2 : (qi + (cis.length : Int)).toNat < cis.length := by omega
  obtain ⟨ci, hci⟩ : ∃ x, cis.get? (qi + (cis.length : Int)).toNat = some x := by
    cases hg : cis.get? (qi + (cis.length : Int)).toNat with
    | none =>
      have := List.get?_eq_none.mp hg
      omega
    | some x => exact ⟨x, rfl⟩
  obtain ⟨ex, hex⟩ : ∃ x, exs.get? (qi + (cis.length : Int)).toNat = some x := by
    cases hg : exs.get? (qi + (cis.length : Int)).toNat with
    | none =>
      have := List.get?_eq_none.mp hg
      omega
    | some x => exact ⟨x, rfl⟩
  have hgc : pyListGet cis qi = some ci := by
    rw [pyListGet, if_neg hneg, if_pos (by exact_mod_cast hidx)]
    exact hci
  have hge : pyListGet exs qi = some ex := by
    rw [pyListGet, if_neg hneg, if_pos (by rw [hlen]; exact_mod_cast hidx)]
    rw [hlen]
    exact hex
  have hrun : get_cached_answer c sid qi = some (some (ci, ex)) := by
    simp only [get_cached_answer, hc, he, hgc, hge, if_neg (show ¬ (cis.length : Int) ≤ qi by omega)]
  refine ⟨ci, ex, hci, hex, hrun, fun si => ?_⟩
  simp only [check_answer, hrun]

/-- Witness for C10: on the two-question cache, index `-1` resolves to the
second question and `/check-answer` reveals its answer. -/
theorem get_cached_answer_negative_index_witness :
    ∃ ci ex, [(3 : Int), 1].get? ((-1) + ((2 : Nat) : Int)).toNat = some ci ∧
      ["first why", "second why"].get? ((-1) + ((2 : Nat) : Int)).toNat = some ex ∧
      get_cached_answer cacheTwoQuestions "s" (-1) = some (some (ci, ex)) ∧
      ∀ si, check_answer cacheTwoQuestions "s" (-1) si = some (Except.ok ⟨si == ci, ci, ex⟩) := by
  have := get_cached_answer_negative_index cacheTwoQuestions "s" [3, 1]
    ["first why", "second why"] (-1) rfl rfl rfl (by decide) (by decide)
  simpa using this

/-- The apostrophe character, used by the Python `repr` of strings. -/
def aposChar : Char := Char.ofNat 39

mutual

/-- Python `str(v)` for a parsed JSON value: strings pass through, other
values render as Python would print them. -/
def pyStr : Json → String
  | Json.null => "None"
  | Json.bool b => if b then "True" else "False"
  | Json.num n => toString n
  | Json.str s => s
  | Json.arr l => "[" ++ pyReprList l ++ "]"
  | Json.obj kvs => "\x7b" ++ pyReprFields kvs ++ "\x7d"
termination_by structural v => v

/-- Python `repr(v)` for a parsed JSON value (quote-escaping inside string
reprs is not modelled). -/
def pyRepr : Json → String
  | Json.null => "None"
  | Json.bool b => if b then "True" else "False"
  | Json.num n => toString n
  | Json.str s => String.mk [aposChar] ++ s ++ String.mk [aposChar]
  | Json.arr l => "[" ++ pyReprList l ++ "]"
  | Json.obj kvs => "\x7b" ++ pyReprFields kvs ++ "\x7d"
termination_by structural v => v

/-- Comma-separated `repr` of list elements. -/
def pyReprList : List Json → String
  | [] => ""
  | [v] => pyRepr v
  | v :: rest => pyRepr v ++ ", " ++ pyReprList rest
termination_by structural l => l

/-- Comma-separated `repr` of dict entries. -/
def pyReprFields : List (String × Json) → String
  | [] => ""
  | [(k, v)] => String.mk [aposChar] ++ k ++ String.mk [aposChar] ++ ": " ++ pyRepr v
  | (k, v) :: rest =>
    String.mk [aposChar] ++ k ++ String.mk [aposChar] ++ ": " ++ pyRepr v ++ ", "
      ++ pyReprFields rest
termination_by structural l => l

end

/-- Python `int(str)` conversion on a trimmed decimal literal; `none` models
a `ValueError`. -/
def pyIntOfChars : List Char → Option Int
  | [] => none
  | '-' :: ds => if ds ≠ [] ∧ ds.all Char.isDigit
      then some (-(ds.foldl (fun a c => 10 * a + (c.toNat - 48)) 0 : Nat)) else none
  | ds => if ds.all Char.isDigit
      then some ((ds.foldl (fun a c => 10 * a + (c.toNat - 48)) 0 : Nat)) else none

/-- Python `int(v)` on a parsed JSON value; `none` models a `TypeError` or
`ValueError`. -/
def pyInt? : Json → Option Int
  | Json.num n => some n
  | Json.bool b => some (if b then 1 else 0)
  | Json.str s => pyIntOfChars (stripChars s.toList)
  | _ => none

/-- Python iteration `for o in v`: lists yield their elements, strings their
characters, dicts their keys; `none` models a `TypeError`. -/
def pyIter : Json → Option (List Json)
  | Json.arr l => some l
  | Json.str s => some (s.toList.map fun c => Json.str (String.mk [c]))
  | Json.obj kvs => some (kvs.map fun p => Json.str p.1)
  | _ => none

/-- The body of the answer-separation loop of `generate_quiz`
(`services/generation.py`): skip non-dict items; for each dict build the
sanitised question (explanation blanked, `correct_index` absent) and collect
the `(correct_index, explanation)` pair.  `none` models an uncaught
`TypeError`/`ValueError` from `int(...)` or from iterating `options`. -/
def processQuizItems : List Json → Option (List Json × List Int × List String)
  | [] => some ([], [], [])
  | q :: rest =>
    match q with
    | Json.obj kvs =>
      match pyInt? (jGetD kvs "correct_index" (Json.num 0)) with
      | none => none
      | some ci =>
        match pyIter (jGetD kvs "options" (Json.arr [])) with
        | none => none
        | some opts =>
          match processQuizItems rest with
          | none => none
          | some (ss, cs, es) =>
            some (Json.obj [("question", Json.str (pyStr (jGetD kvs "question" (Json.str "")))),
                    ("options", Json.arr (opts.map fun o => Json.str (pyStr o))),
                    ("explanation", Json.str "")] :: ss,
                  ci :: cs,
                  pyStr (jGetD kvs "explanation" (Json.str "")) :: es)
    | _ => processQuizItems rest

/-- `generate_quiz` from `services/generation.py`, parameterised by the parsed
model output (the completion call and JSON parsing happen upstream): build the
sanitised questions and overwrite the session's answer cache. -/
def generate_quiz (c : AnswerCache) (session_id : String) (questions : List Json) :
    Option (List Json × AnswerCache) :=
  (processQuizItems questions).map fun r =>
    (r.1, cache_quiz_answers c session_id r.2.1 r.2.2)

/-- The validation loop of `generate_flashcards` (`services/generation.py`):
keep only dict items carrying both `front` and `back`. -/
def validate_flashcards : List Json → List Json
  | [] => []
  | c :: rest =>
    match c with
    | Json.obj kvs =>
      match kvs.lookup "front", kvs.lookup "back" with
      | some f, some b =>
        Json.obj [("front", Json.str (pyStr f)), ("back", Json.str (pyStr b))]
          :: validate_flashcards rest
      | _, _ => validate_flashcards rest
    | _ => validate_flashcards rest

/-- Option-valued `mapM` on lists, written out for direct induction. -/
def mapOpt (f : α → Option β) : List α → Option (List β)
  | [] => some []
  | a :: l =>
    match f a with
    | none => none
    | some b =>
      match mapOpt f l with
      | none => none
      | some bs => some (b :: bs)

theorem mapOpt_length (f : α → Option β) (l : List α) (r : List β)
    (h : mapOpt f l = some r) : r.length = l.length := by
  induction l generalizing r with
  | nil =>
    simp only [mapOpt] at h
    injection h with h2
    subst h2
    rfl
  | cons a l ih =>
    simp only [mapOpt] at h
    cases hf : f a with
    | none => rw [hf] at h; exact Option.noConfusion h
    | some b =>
      rw [hf] at h
      cases hm : mapOpt f l with
      | none => rw [hm] at h; exact Option.noConfusion h
      | some bs =>
        rw [hm] at h
        injection h with h2
        subst h2
        simp [ih bs hm]

theorem mapOpt_get? (f : α → Option β) (l : List α) (r : List β)
    (h : mapOpt f l = some r) (k : Nat) (a : α) (ha : l.get? k = some a) :
    r.get? k = f a := by
  induction l generalizing r k with
  | nil => exact Option.noConfusion ha
  | cons x l ih =>
    simp only [mapOpt] at h
    cases hf : f x with
    | none => rw [hf] at h; exact Option.noConfusion h
    | some b =>
      rw [hf] at h
      cases hm : mapOpt f l with
      | none => rw [hm] at h; exact Option.noConfusion h
      | some bs =>
        rw [hm] at h
        injection h with h2
        subst h2
        cases k with
        | zero =>
          injection ha with h3
          subst h3
          simpa using hf.symm
        | succ k => simpa using ih bs hm k ha

theorem mapOpt_mem (f : α → Option β) (l : List α) (r : List β)
    (h : mapOpt f l = some r) (b : β) (hb : b ∈ r) : ∃ a ∈ l, f a = some b := by
  induction l generalizing r with
  | nil =>
    simp only [mapOpt] at h
    injection h with h2
    subst h2
    cases hb
  | cons x l ih =>
    simp only [mapOpt] at h
    cases hf : f x with
    | none => rw [hf] at h; exact Option.noConfusion h
    | some y =>
      rw [hf] at h
      cases hm : mapOpt f l with
      | none => rw [hm] at h; exact Option.noConfusion h
      | some bs =>
        rw [hm] at h
        injection h with h2
        subst h2
        rcases List.mem_cons.mp hb with hby | hbs
        · exact ⟨x, by simp, by rw [hf, hby]⟩
        · obtain ⟨a, ha, hfa⟩ := ih bs hm hbs
          exact ⟨a, by simp [ha], hfa⟩

/-- The per-item computation of the `generate_quiz` loop on a dict item:
the sanitised question together with its hidden `(correct_index, explanation)`
pair; `none` on non-dicts or on conversion failure. -/
def quizParts : Json → Option (Json × Int × String)
  | Json.obj kvs =>
    match pyInt? (jGetD kvs "correct_index" (Json.num 0)) with
    | none => none
    | some ci =>
      match pyIter (jGetD kvs "options" (Json.arr [])) with
      | none => none
      | some opts =>
        some (Json.obj [("question", Json.str (pyStr (jGetD kvs "question" (Json.str "")))),
                ("options", Json.arr (opts.map fun o => Json.str (pyStr o))),
                ("explanation", Json.str "")],
              ci, pyStr (jGetD kvs "explanation" (Json.str "")))
  | _ => none

theorem processQuizItems_eq (qs : List Json) :
    processQuizItems qs = (mapOpt quizParts (qs.filter Json.isObj)).map
      (fun l => (l.map Prod.fst, (l.map fun p => p.2.1), l.map fun p => p.2.2)) := by
  induction qs with
  | nil => rfl
  | cons q rest ih =>
    cases q with
    | obj kvs =>
      simp only [processQuizItems, List.filter_cons, Json.isObj, if_true, mapOpt, quizParts]
      cases hci : pyInt? (jGetD kvs "correct_index" (Json.num 0)) with
      | none => rfl
      | some ci =>
        cases hop : pyIter (jGetD kvs "options" (Json.arr [])) with
        | none => rfl
        | some opts =>
          rw [ih]
          cases hm : mapOpt quizParts (rest.filter Json.isObj) with
          | none => rfl
          | some l => rfl
    | null => simpa [processQuizItems, List.filter_cons, Json.isObj] using ih
    | bool b => simpa [processQuizItems, List.filter_cons, Json.isObj] using ih
    | num n => simpa [processQuizItems, List.filter_cons, Json.isObj] using ih
    | str s => simpa [processQuizItems, List.filter_cons, Json.isObj] using ih
    | arr l => simpa [processQuizItems, List.filter_cons, Json.isObj] using ih

theorem processQuizItems_pointwise (qs ss : List Json) (cis : List Int) (exs : List String)
    (h : processQuizItems qs = some (ss, cis, exs)) :
    ss.length = (qs.filter Json.isObj).length ∧
    cis.length = (qs.filter Json.isObj).length ∧
    exs.length = (qs.filter Json.isObj).length ∧
    (∀ q ∈ ss, ∃ kvs, q = Json.obj kvs ∧ kvs.lookup "correct_index" = none ∧
        kvs.lookup "explanation" = some (Json.str "")) ∧
    (∀ k kvs, (qs.filter Json.isObj).get? k = some (Json.obj kvs) →
        cis.get? k = pyInt? (jGetD kvs "correct_index" (Json.num 0)) ∧
        exs.get? k = some (pyStr (jGetD kvs "explanation" (Json.str "")))) := by
  rw [processQuizItems_eq] at h
  cases hm : mapOpt quizParts (qs.filter Json.isObj) with
  | none =>
    rw [hm] at h
    exact Option.noConfusion h
  | some l =>
    rw [hm] at h
    injection h with h2
    have hss : ss = l.map Prod.fst := congrArg Prod.fst h2.symm
    have hrest := congrArg Prod.snd h2.symm
    have hcis : cis = l.map fun p => p.2.1 := congrArg Prod.fst hrest
    have hexs : exs = l.map fun p => p.2.2 := congrArg Prod.snd hrest
    have hlen := mapOpt_length quizParts _ l hm
    refine ⟨by simp [hss, hlen], by simp [hcis, hlen], by simp [hexs, hlen], ?_, ?_⟩
    · intro q hq
      rw [hss] at hq
      obtain ⟨p, hp, hpq⟩ := List.mem_map.mp hq
      obtain ⟨a, ha, hfa⟩ := mapOpt_mem quizParts _ l hm p hp
      obtain ⟨haq, hobj⟩ := List.mem_filter.mp ha
      cases a with
      | obj kvs =>
        simp only [quizParts] at hfa
        cases hci : pyInt? (jGetD kvs "correct_index" (Json.num 0)) with
        | none => rw [hci] at hfa; exact Option.noConfusion hfa
        | some ci =>
          rw [hci] at hfa
          cases hop : pyIter (jGetD kvs "options" (Json.arr [])) with
          | none => rw [hop] at hfa; exact Option.noConfusion hfa
          | some opts =>
            rw [hop] at hfa
            injection hfa with h3
            subst h3
            exact ⟨_, hpq.symm, rfl, rfl⟩
      | null => exact Bool.noConfusion hobj
      | bool b => exact Bool.noConfusion hobj
      | num n => exact Bool.noConfusion hobj
      | str s => exact Bool.noConfusion hobj
      | arr el => exact Bool.noConfusion hobj
    · intro k kvs hk
      have hlk := mapOpt_get? quizParts _ l hm k _ hk
      simp only [quizParts] at hlk
      have hklen : k < (qs.filter Json.isObj).length := by
        by_contra hcon
        rw [List.get?_eq_none.mpr (by omega)] at hk
        exact Option.noConfusion hk
      cases hci : pyInt? (jGetD kvs "correct_index" (Json.num 0)) with
      | none =>
        rw [hci] at hlk
        have hnone : l.get? k = none := hlk
        rw [List.get?_eq_none] at hnone
        omega
      | some ci =>
        rw [hci] at hlk
        cases hop : pyIter (jGetD kvs "options" (Json.arr [])) with
        | none =>
          rw [hop] at hlk
          have hnone : l.get? k = none := hlk
          rw [List.get?_eq_none] at hnone
          omega
        | some opts =>
          rw [hop] at hlk
          constructor
          · rw [hcis, List.get?_map, hlk]
            rfl
          · rw [hexs, List.get?_map, hlk]
            rfl

/-- C1: whenever `generate_quiz` succeeds, every returned question object has
no `correct_index` field and an empty `explanation`, while the
`(correct_index, explanation)` pair of every parsed dict question is written
to the session's answer cache. -/
theorem generate_quiz_conceals_answers (c : AnswerCache) (sid : String)
    (qs safe : List Json) (c' : AnswerCache)
    (h : generate_quiz c sid qs = some (safe, c')) :
    (∀ q ∈ safe, ∃ kvs, q = Json.obj kvs ∧ kvs.lookup "correct_index" = none ∧
        kvs.lookup "explanation" = some (Json.str "")) ∧
    ∃ cis exs, c'.answers.lookup sid = some cis ∧ c'.explanations.lookup sid = some exs ∧
      cis.length = (qs.filter Json.isObj).length ∧
      exs.length = (qs.filter Json.isObj).length ∧
      ∀ k kvs, (qs.filter Json.isObj).get? k = some (Json.obj kvs) →
        cis.get? k = pyInt? (jGetD kvs "correct_index" (Json.num 0)) ∧
        exs.get? k = some (pyStr (jGetD kvs "explanation" (Json.str ""))) := by
  rw [generate_quiz] at h
  cases hp : processQuizItems qs with
  | none =>
    rw [hp] at h
    exact Option.noConfusion h
  | some r =>
    rw [hp] at h
    injection h with h2
    obtain ⟨ss, cis, exs⟩ := r
    have hsafe : safe = ss := (congrArg Prod.fst h2).symm
    have hc' : c' = cache_quiz_answers c sid cis exs := (congrArg Prod.snd h2).symm
    obtain ⟨_, hcl, hel, hshape, hpoint⟩ := processQuizItems_pointwise qs ss cis exs hp
    subst hsafe
    subst hc'
    refine ⟨hshape, cis, exs, ?_, ?_, hcl, hel, hpoint⟩
    · exact dictSet_lookup_self _ _ _
    · exact dictSet_lookup_self _ _ _

/-- Field list of a quiz item with all fields present, for the C1 witness. -/
def quizItemFullFields : List (String × Json) :=
  [("question", Json.str "What is 2+2?"),
    ("options", Json.arr [Json.str "3", Json.str "4", Json.str "5", Json.str "6"]),
    ("correct_index", Json.num 1), ("explanation", Json.str "Basic arithmetic.")]

/-- A quiz item with all fields present, for the C1 witness. -/
def quizItemFull : Json := Json.obj quizItemFullFields

/-- Witness for C1: running `generate_quiz` on one concrete parsed question
yields a sanitised payload and a populated cache with the stated properties. -/
theorem generate_quiz_conceals_answers_witness :
    ∃ safe : List Json, ∃ c' : AnswerCache,
      generate_quiz ⟨[], []⟩ "s" [quizItemFull, Json.str "noise"] = some (safe, c') ∧
      (∀ q ∈ safe, ∃ kvs, q = Json.obj kvs ∧ kvs.lookup "correct_index" = none ∧
          kvs.lookup "explanation" = some (Json.str "")) ∧
      c'.answers.lookup "s" = some [1] ∧
      c'.explanations.lookup "s" = some ["Basic arithmetic."] := by
  obtain ⟨safe, c', hrun⟩ : ∃ safe c',
      generate_quiz ⟨[], []⟩ "s" [quizItemFull, Json.str "noise"] = some (safe, c') :=
    ⟨_, _, rfl⟩
  have hmain := generate_quiz_conceals_answers ⟨[], []⟩ "s" [quizItemFull, Json.str "noise"]
    safe c' hrun
  refine ⟨safe, c', hrun, hmain.1, ?_, ?_⟩
  · obtain ⟨cis, exs, ha, he, hcl, hel, hpoint⟩ := hmain.2
    have hl1 : cis.length = 1 := by simpa using hcl
    cases cis with
    | nil => simp at hl1
    | cons a t =>
      cases t with
      | cons b u => simp at hl1
      | nil =>
        have h3 : (some a : Option Int) = some 1 := (hpoint 0 quizItemFullFields (by rfl)).1
        injection h3 with h4
        subst h4
        exact ha
  · obtain ⟨cis, exs, ha, he, hcl, hel, hpoint⟩ := hmain.2
    have hl1 : exs.length = 1 := by simpa using hel
    cases exs with
    | nil => simp at hl1
    | cons a t =>
      cases t with
      | cons b u => simp at hl1
      | nil =>
        have h3 : (some a : Option String) = some "Basic arithmetic." :=
          (hpoint 0 quizItemFullFields (by rfl)).2
        injection h3 with h4
        subst h4
        exact he

/-- The shape test of the flashcard validation loop: a dict with both `front`
and `back` keys. -/
def isCardShaped : Json → Bool
  | Json.obj kvs => (kvs.lookup "front").isSome && (kvs.lookup "back").isSome
  | _ => false

/-- The sanitised card built from a well-shaped item. -/
def mkValidCard : Json → Json
  | Json.obj kvs =>
    Json.obj [("front", Json.str (pyStr ((kvs.lookup "front").getD Json.null))),
      ("back", Json.str (pyStr ((kvs.lookup "back").getD Json.null)))]
  | _ => Json.null

theorem validate_flashcards_eq (cards : List Json) :
    validate_flashcards cards = (cards.filter isCardShaped).map mkValidCard := by
  induction cards with
  | nil => rfl
  | cons c rest ih =>
    cases c with
    | obj kvs =>
      cases hf : kvs.lookup "front" with
      | none => simp [validate_flashcards, List.filter_cons, isCardShaped, hf, ih]
      | some f =>
        cases hb : kvs.lookup "back" with
        | none => simp [validate_flashcards, List.filter_cons, isCardShaped, hf, hb, ih]
        | some b =>
          simp [validate_flashcards, List.filter_cons, isCardShaped, hf, hb, ih, mkValidCard]
    | null => simp [validate_flashcards, List.filter_cons, isCardShaped, ih]
    | bool b => simp [validate_flashcards, List.filter_cons, isCardShaped, ih]
    | num n => simp [validate_flashcards, List.filter_cons, isCardShaped, ih]
    | str s => simp [validate_flashcards, List.filter_cons, isCardShaped, ih]
    | arr l => simp [validate_flashcards, List.filter_cons, isCardShaped, ih]

/-- C8: flashcard validation silently drops every item that is not an object
with both `front` and `back` (the output is exactly the well-shaped items,
sanitised), while the quiz loop keeps every object item, defaulting a missing
`correct_index` to 0 and a missing `explanation` to the empty string. -/
theorem validation_asymmetry (cards qs safe : List Json) (cis : List Int) (exs : List String)
    (h : processQuizItems qs = some (safe, cis, exs)) :
    validate_flashcards cards = (cards.filter isCardShaped).map mkValidCard ∧
    safe.length = (qs.filter Json.isObj).length ∧
    ∀ k kvs, (qs.filter Json.isObj).get? k = some (Json.obj kvs) →
      (kvs.lookup "correct_index" = none → cis.get? k = some 0) ∧
      (kvs.lookup "explanation" = none → exs.get? k = some "") := by
  obtain ⟨hsl, _, _, _, hpoint⟩ := processQuizItems_pointwise qs safe cis exs h
  refine ⟨validate_flashcards_eq cards, hsl, ?_⟩
  intro k kvs hk
  obtain ⟨hci, hex⟩ := hpoint k kvs hk
  constructor
  · intro hnone
    rw [hci, jGetD, hnone]
    rfl
  · intro hnone
    rw [hex, jGetD, hnone]
    rfl

/-- Witness for C8: a malformed flashcard list keeps only the full card, and
a quiz item that is an empty object is kept with defaulted answer fields. -/
theorem validation_asymmetry_witness :
    validate_flashcards [Json.obj [("front", Json.str "f")], Json.str "x",
        Json.obj [("front", Json.str "f"), ("back", Json.str "b")]]
      = [Json.obj [("front", Json.str "f"), ("back", Json.str "b")]] ∧
    ∃ safe cis exs, processQuizItems [Json.obj [], Json.num 7] = some (safe, cis, exs) ∧
      safe.length = 1 ∧ cis.get? 0 = some 0 ∧ exs.get? 0 = some "" := by
  obtain ⟨safe, cis, exs, hrun⟩ : ∃ safe cis exs,
      processQuizItems [Json.obj [], Json.num 7] = some (safe, cis, exs) := ⟨_, _, _, rfl⟩
  have hmain := validation_asymmetry
    [Json.obj [("front", Json.str "f")], Json.str "x",
      Json.obj [("front", Json.str "f"), ("back", Json.str "b")]]
    [Json.obj [], Json.num 7] safe cis exs hrun
  have hpt := hmain.2.2 0 [] (by rfl)
  refine ⟨?_, safe, cis, exs, hrun, by simpa using hmain.2.1, hpt.1 rfl, hpt.2 rfl⟩
  rw [hmain.1]
  rfl

/-- The batching loop of `embed_chunks` (`services/embeddings.py`),
instrumented with the number of upstream requests issued.  `create` models
`client.embeddings.create` for one batch: `none` is a failed call (the
exception aborts the whole loop), `some vs` returns one vector per input.
Batches of 100 are taken in order, exactly as the Python `range` loop does. -/
def embedLoopTr {V : Type} (create : List String → Option (List V)) :
    List String → Option (List V) × Nat
  | [] => (some [], 0)
  | c :: cs =>
    match create ((c :: cs).take 100) with
    | none => (none, 1)
    | some vs =>
      ((embedLoopTr create (cs.drop 99)).1.map fun rest => vs ++ rest,
        (embedLoopTr create (cs.drop 99)).2 + 1)
termination_by l => l.length
decreasing_by
  simp [List.length_drop]
  omega

/-- `embed_chunks` from `services/embeddings.py`: concatenated batch results,
or `none` if any batch call failed. -/
def embed_chunks {V : Type} (create : List String → Option (List V))
    (chunks : List String) : Option (List V) :=
  (embedLoopTr create chunks).1

theorem ceilDiv_step (L : Nat) (h : 1 ≤ L) : (L - 100 + 99) / 100 + 1 = (L + 99) / 100 := by
  rcases Nat.le_total L 100 with hle | hge
  · have h1 : L - 100 = 0 := by omega
    rw [h1, show (0 + 99) / 100 = 0 from rfl]
    have : (L + 99) / 100 = 1 := by
      rw [Nat.div_eq_of_lt_le] <;> omega
    omega
  · have h2 : L - 100 + 99 = L - 1 := by omega
    have h3 : L + 99 = (L - 1) + 100 := by omega
    rw [h2, h3, Nat.add_div_right _ (by omega)]

theorem embedLoopTr_success {V : Type} (create : List String → Option (List V))
    (f : String → V) (hcreate : ∀ b, create b = some (b.map f)) :
    ∀ n (chunks : List String), chunks.length ≤ n →
      (embedLoopTr create chunks).1 = some (chunks.map f) ∧
      (embedLoopTr create chunks).2 = (chunks.length + 99) / 100 := by
  intro n
  induction n with
  | zero =>
    intro chunks h
    have hnil : chunks = [] := List.length_eq_zero.mp (by omega)
    subst hnil
    constructor <;> simp [embedLoopTr]
  | succ n ih =>
    intro chunks h
    cases chunks with
    | nil => constructor <;> simp [embedLoopTr]
    | cons c cs =>
      have hcr := hcreate ((c :: cs).take 100)
      have hrec := ih (cs.drop 99) (by
        simp only [List.length_drop]
        simp only [List.length_cons] at h
        omega)
      have hsplit : (c :: cs).take 100 ++ cs.drop 99 = c :: cs := by
        have := List.take_append_drop 100 (c :: cs)
        simpa [List.drop_succ_cons] using this
      have hmap : List.map f (c :: cs)
          = List.map f ((c :: cs).take 100) ++ List.map f (cs.drop 99) := by
        rw [← List.map_append, hsplit]
      constructor
      · simp only [embedLoopTr, hcr, hrec.1, hmap]
        rfl
      · simp only [embedLoopTr, hcr]
        rw [hrec.2]
        have hlen : (cs.drop 99).length = (c :: cs).length - 100 := by
          simp only [List.length_drop, List.length_cons]
          omega
        rw [hlen]
        exact ceilDiv_step (c :: cs).length (by simp)

theorem embedLoopTr_some_batches {V : Type} (create : List String → Option (List V)) :
    ∀ (k : Nat) (chunks : List String) (vs : List V),
      (embedLoopTr create chunks).1 = some vs →
      100 * k < chunks.length → (create ((chunks.drop (100 * k)).take 100)).isSome := by
  intro k
  induction k with
  | zero =>
    intro chunks vs h hlt
    cases chunks with
    | nil => simp at hlt
    | cons c cs =>
      simp only [embedLoopTr] at h
      cases hcr : create ((c :: cs).take 100) with
      | none =>
        rw [hcr] at h
        exact Option.noConfusion h
      | some ws =>
        simp only [Nat.mul_zero, List.drop_zero]
        rw [hcr]
        rfl
  | succ k ih =>
    intro chunks vs h hlt
    cases chunks with
    | nil => simp at hlt
    | cons c cs =>
      simp only [embedLoopTr] at h
      cases hcr : create ((c :: cs).take 100) with
      | none =>
        rw [hcr] at h
        exact Option.noConfusion h
      | some ws =>
        rw [hcr] at h
        simp only at h
        cases hrec : (embedLoopTr create (cs.drop 99)).1 with
        | none =>
          rw [hrec] at h
          exact Option.noConfusion h
        | some rest =>
          have hdrop : (c :: cs).drop (100 * (k + 1)) = (cs.drop 99).drop (100 * k) := by
            rw [List.drop_drop]
            rw [show 100 * (k + 1) = (100 * k + 99) + 1 from by omega, List.drop_succ_cons]
            try rfl
            try
              congr 1
              omega
          rw [hdrop]
          refine ih (cs.drop 99) rest hrec ?_
          simp only [List.length_drop]
          simp only [List.length_cons] at hlt
          omega

/-- C5: assuming every upstream embedding call returns one vector per input
string in input order (a pure vectoriser `f`), `embed_chunks` issues exactly
`ceil(N/100)` upstream calls and returns the `N` input vectors in input
order; and whenever it returns a result at all, every batch call it issued
succeeded (a failed batch fails the whole operation, no partial result). -/
theorem embed_chunks_spec {V : Type} (create : List String → Option (List V))
    (f : String → V) (chunks : List String) :
    ((∀ b, create b = some (b.map f)) →
      embed_chunks create chunks = some (chunks.map f) ∧
      (embedLoopTr create chunks).2 = (chunks.length + 99) / 100) ∧
    (∀ vs, embed_chunks create chunks = some vs →
      ∀ k, 100 * k < chunks.length → (create ((chunks.drop (100 * k)).take 100)).isSome) := by
  constructor
  · intro hc
    exact embedLoopTr_success create f hc chunks.length chunks (Nat.le_refl _)
  · intro vs h k hk
    exact embedLoopTr_some_batches create k chunks vs h hk

/-- Witness for C5: three inputs embed to three vectors in order with one
upstream call, and that call is recorded as having succeeded. -/
theorem embed_chunks_spec_witness :
    embed_chunks (fun b => some (b.map String.length)) ["a", "bb", "ccc"] = some [1, 2, 3] ∧
    (embedLoopTr (fun b => some (b.map String.length)) ["a", "bb", "ccc"]).2 = 1 ∧
    ((fun (b : List String) => some (b.map String.length))
      ((["a", "bb", "ccc"].drop (100 * 0)).take 100)).isSome := by
  have h := (embed_chunks_spec (fun b => some (b.map String.length)) String.length
    ["a", "bb", "ccc"]).1 (fun b => rfl)
  have h2 := (embed_chunks_spec (fun b => some (b.map String.length)) String.length
    ["a", "bb", "ccc"]).2 [1, 2, 3] (by simpa using h.1) 0 (by simp)
  exact ⟨by simpa using h.1, by simpa using h.2, h2⟩

/-- One row of the `documents` table, with the embedding type abstract. -/
structure DocRow (V : Type) where
  session_id : String
  content : String
  embedding : V
  source_type : String
  chunk_index : Nat
deriving DecidableEq

/-- Backend state touched by ingestion: the `documents` table plus the two
in-memory answer caches. -/
structure ServerState (V : Type) where
  documents : List (DocRow V)
  cache : AnswerCache
deriving DecidableEq

/-- `store_chunks` from `services/vector_store.py`: insert one row per
`(chunk, embedding)` pair, with `chunk_index` its position. -/
def store_chunks (db : List (DocRow V)) (session_id : String)
    (chunks : List String) (embeddings : List V) (source_type : String) : List (DocRow V) :=
  db ++ (chunks.zip embeddings).enum.map fun p =>
    ⟨session_id, p.2.1, p.2.2, source_type, p.1⟩

/-- `delete_session_data` from `services/vector_store.py`: delete the
session's rows and clear its entries in both answer caches. -/
def delete_session_data (st : ServerState V) (session_id : String) : ServerState V :=
  { documents := st.documents.filter fun r => !(r.session_id == session_id),
    cache := ⟨dictDel st.cache.answers session_id, dictDel st.cache.explanations session_id⟩ }

/-- The `/process-video` endpoint (`main.py`), parameterised by the chunked
transcript and its embeddings (transcript fetch, chunking and embedding are
upstream effects).  Returns the reported chunk count, `none` modelling the
422 rejection of an empty chunk list; the state reflects that the deletion
happens before the emptiness check. -/
def process_video (st : ServerState V) (session_id : String)
    (chunks : List String) (embeddings : List V) : Option Nat × ServerState V :=
  let st1 := delete_session_data st session_id
  if chunks.isEmpty then (none, st1)
  else (some chunks.length,
    { st1 with documents := store_chunks st1.documents session_id chunks embeddings "youtube" })

/-- The `/process-pdf` endpoint (`main.py`), parameterised by the decode
outcome, the decoded size and the extraction results.  Decode failure and the
15 MB limit reject the request before anything is deleted. -/
def process_pdf (st : ServerState V) (session_id : String) (b64ok : Bool) (nBytes : Nat)
    (chunks : List String) (embeddings : List V) : Option Nat × ServerState V :=
  if !b64ok then (none, st)
  else if 15 * 1024 * 1024 < nBytes then (none, st)
  else
    let st1 := delete_session_data st session_id
    if chunks.isEmpty then (none, st1)
    else (some chunks.length,
      { st1 with documents := store_chunks st1.documents session_id chunks embeddings "pdf" })

/-- The rows of one session, as any session-filtered query sees them. -/
def sessionRows (db : List (DocRow V)) (session_id : String) : List (DocRow V) :=
  db.filter fun r => r.session_id == session_id

/-- The fresh rows an ingestion of `chunks`/`embeddings` writes. -/
def freshRows (session_id : String) (chunks : List String) (embeddings : List V)
    (source_type : String) : List (DocRow V) :=
  (chunks.zip embeddings).enum.map fun p => ⟨session_id, p.2.1, p.2.2, source_type, p.1⟩

theorem sessionRows_after_ingest (db : List (DocRow V)) (sid : String)
    (chunks : List String) (embeddings : List V) (srcType : String) :
    sessionRows (store_chunks (db.filter fun r => !(r.session_id == sid)) sid
      chunks embeddings srcType) sid = freshRows sid chunks embeddings srcType := by
  unfold sessionRows store_chunks freshRows
  rw [List.filter_append]
  have h1 : ((db.filter fun r => !(r.session_id == sid)).filter
      fun r => r.session_id == sid) = [] := by
    rw [List.filter_filter]
    apply List.filter_eq_nil.mpr
    intro r _
    cases hr : (r.session_id == sid) <;> simp [hr]
  have h2 : (((chunks.zip embeddings).enum.map fun p =>
        (⟨sid, p.2.1, p.2.2, srcType, p.1⟩ : DocRow V)).filter
      fun r => r.session_id == sid) =
      (chunks.zip embeddings).enum.map fun p =>
        (⟨sid, p.2.1, p.2.2, srcType, p.1⟩ : DocRow V) := by
    apply List.filter_eq_self.mpr
    intro r hr
    obtain ⟨p, _, hp⟩ := List.mem_map.mp hr
    rw [← hp]
    exact beq_self_eq_true sid
  rw [h1, h2, List.nil_append]

/-- C3: each ingestion endpoint deletes every stored row of the session before
inserting the new chunks, so after a successful ingestion — regardless of any
prior state, including an earlier ingestion of the same session — exactly the
new chunk set is queryable for that session: the fresh rows, whose contents
are the ingested chunks in order.  An ingestion rejected for empty chunks
still leaves the session's store empty. -/
theorem ingestion_supersedes (st : ServerState V) (sid : String)
    (chunks : List String) (embeddings : List V) :
    (chunks ≠ [] →
      sessionRows ((process_video st sid chunks embeddings).2).documents sid
        = freshRows sid chunks embeddings "youtube" ∧
      ∀ nBytes, nBytes ≤ 15 * 1024 * 1024 →
        sessionRows ((process_pdf st sid true nBytes chunks embeddings).2).documents sid
          = freshRows sid chunks embeddings "pdf") ∧
    (embeddings.length = chunks.length →
      (freshRows sid chunks embeddings "youtube").map (fun r => r.content) = chunks) ∧
    (chunks = [] →
      sessionRows ((process_video st sid chunks embeddings).2).documents sid = []) := by
  refine ⟨?_, ?_, ?_⟩
  · intro hne
    have hnem : chunks.isEmpty = false := by
      cases chunks with
      | nil => exact absurd rfl hne
      | cons a l => rfl
    constructor
    · simp only [process_video, hnem, Bool.false_eq_true, if_false]
      exact sessionRows_after_ingest st.documents sid chunks embeddings "youtube"
    · intro nBytes hsize
      simp only [process_pdf, Bool.not_true, Bool.false_eq_true, if_false,
        if_neg (by omega : ¬ 15 * 1024 * 1024 < nBytes), hnem]
      exact sessionRows_after_ingest st.documents sid chunks embeddings "pdf"
  · intro hlen
    unfold freshRows
    rw [show ((chunks.zip embeddings).enum.map fun p =>
        (⟨sid, p.2.1, p.2.2, "youtube", p.1⟩ : DocRow V)).map (fun r => r.content)
        = (chunks.zip embeddings).enum.map fun p => p.2.1 from by
      rw [List.map_map]; rfl]
    rw [show ((chunks.zip embeddings).enum.map fun p => p.2.1)
        = (chunks.zip embeddings).enum.map ((fun q => q.1) ∘ Prod.snd) from rfl]
    rw [← List.map_map, List.enum_map_snd]
    exact List.map_fst_zip chunks embeddings (by omega)
  · intro hnil
    subst hnil
    simp only [process_video, List.isEmpty_nil, if_true]
    unfold sessionRows delete_session_data
    rw [List.filter_filter]
    apply List.filter_eq_nil.mpr
    intro r _
    cases hr : (r.session_id == sid) <;> simp [hr]

/-- Witness for C3: a concrete one-row prior state for session `s` is fully
superseded by re-ingestion of two chunks, and an empty re-ingestion leaves
the session empty. -/
theorem ingestion_supersedes_witness :
    sessionRows ((process_video
        (⟨[⟨"s", "old", (0 : Int), "youtube", 0⟩], ⟨[], []⟩⟩ : ServerState Int)
        "s" ["newA", "newB"] [5, 6]).2).documents "s"
      = freshRows "s" ["newA", "newB"] [5, 6] "youtube" ∧
    (freshRows "s" ["newA", "newB"] [(5 : Int), 6] "youtube").map (fun r => r.content)
      = ["newA", "newB"] ∧
    sessionRows ((process_video
        (⟨[⟨"s", "old", (0 : Int), "youtube", 0⟩], ⟨[], []⟩⟩ : ServerState Int)
        "s" [] []).2).documents "s" = [] := by
  have h := ingestion_supersedes
    (⟨[⟨"s", "old", (0 : Int), "youtube", 0⟩], ⟨[], []⟩⟩ : ServerState Int)
    "s" ["newA", "newB"] [5, 6]
  have h2 := ingestion_supersedes
    (⟨[⟨"s", "old", (0 : Int), "youtube", 0⟩], ⟨[], []⟩⟩ : ServerState Int)
    "s" ([] : List String) ([] : List Int)
  exact ⟨(h.1 (by simp)).1, h.2.1 rfl, h2.2.2 rfl⟩

/-- A chat turn (`models.py` `ChatMessage`). -/
structure ChatMessage where
  role : String
  content : String
deriving DecidableEq

/-- The fallback context of `stream_chat_response` (`services/rag.py`) when
retrieval returns nothing. -/
def chat_placeholder : String :=
  "(No relevant content found in the uploaded document for this query.)"

/-- The context block of `stream_chat_response`: joined chunks, or the
placeholder when retrieval returned the empty list. -/
def chat_context (chunks : List String) : String :=
  if chunks.isEmpty then chat_placeholder
  else String.intercalate "\n\n---\n\n" chunks

/-- `_SYSTEM_TEMPLATE` from `services/rag.py` up to the `context` slot. -/
def systemTemplateHead : String :=
  "You are a helpful learning assistant. Your job is to answer the user's questions based on the provided context from their uploaded document or video (including any source metadata tags like Title or Date).\n\nIf the answer is definitely not found in the context, say clearly: \"I don't have enough information from the provided content to answer that.\"\n\nBe concise, accurate, and educational in your responses.\n\nContext:\n"

/-- `_SYSTEM_TEMPLATE.format(context=...)`. -/
def system_prompt (context : String) : String := systemTemplateHead ++ context

/-- The message list `stream_chat_response` sends to the model: the system
prompt with the retrieved (or placeholder) context, the last 10 history
turns, then the user message.  The retrieval result is a parameter; the
streaming completion call is the downstream effect. -/
def stream_chat_messages (message : String) (history : List ChatMessage)
    (chunks : List String) : List ChatMessage :=
  ⟨"system", system_prompt (chat_context chunks)⟩ ::
    (history.drop (history.length - 10) ++ [⟨"user", message⟩])

/-- C9: when retrieval returns no chunks, the context substituted into the
system prompt is the explicit non-empty placeholder, so the model never
receives an empty context, and the message list is still well-formed. -/
theorem stream_chat_empty_retrieval (message : String) (history : List ChatMessage) :
    chat_context [] = chat_placeholder ∧
    chat_placeholder ≠ "" ∧
    (stream_chat_messages message history []).head? =
      some ⟨"system", system_prompt chat_placeholder⟩ ∧
    system_prompt chat_placeholder ≠ "" ∧
    stream_chat_messages message history [] ≠ [] := by
  refine ⟨rfl, by decide, rfl, ?_, by simp [stream_chat_messages]⟩
  intro h
  have hlen := congrArg String.length h
  rw [system_prompt, String.length_append] at hlen
  have h2 : chat_placeholder.length = 68 := by decide
  have h3 : ("" : String).length = 0 := rfl
  omega

/-- JSON whitespace (as skipped by `json.loads`). -/
def jsonWs (c : Char) : Bool :=
  c == ' ' || c == '\t' || c == '\n' || c == '\r'

/-- Skip leading JSON whitespace. -/
def skipWs (cs : List Char) : List Char := cs.dropWhile jsonWs

/-- JSON string escape characters understood by the embedded parser
(`\uXXXX` escapes are outside this model). -/
def escChar : Char → Option Char
  | '"' => some '"'
  | '\\' => some '\\'
  | '/' => some '/'
  | 'b' => some (Char.ofNat 8)
  | 'f' => some (Char.ofNat 12)
  | 'n' => some '\n'
  | 'r' => some '\r'
  | 't' => some '\t'
  | _ => none

mutual

/-- Parse the contents of a JSON string after its opening quote, returning
the characters and the remainder after the closing quote. -/
def parseStringChars : List Char → Option (List Char × List Char)
  | [] => none
  | c :: rest =>
    if c = '"' then some ([], rest)
    else if c = '\\' then parseEscape rest
    else
      match parseStringChars rest with
      | none => none
      | some (s, r) => some (c :: s, r)
termination_by structural l => l

/-- Parse the character after a backslash, then the rest of the string. -/
def parseEscape : List Char → Option (List Char × List Char)
  | [] => none
  | e :: rest2 =>
    match escChar e with
    | none => none
    | some c2 =>
      match parseStringChars rest2 with
      | none => none
      | some (s, r) => some (c2 :: s, r)
termination_by structural l => l

end

/-- Longest prefix of decimal digits, as digit values. -/
def parseDigits : List Char → List Nat × List Char
  | [] => ([], [])
  | c :: rest =>
    if c.isDigit then
      match parseDigits rest with
      | (ds, r) => ((c.toNat - 48) :: ds, r)
    else ([], c :: rest)

/-- Value of a big-endian digit list. -/
def digitsToNat (ds : List Nat) : Nat := ds.foldl (fun a d => 10 * a + d) 0

/-- Parse an unsigned integer numeral; fractional or exponent forms are
rejected by this model (see the `Json` doc comment). -/
def parseNumAux (cs : List Char) : Option (Nat × List Char) :=
  match parseDigits cs with
  | ([], _) => none
  | (ds, rest) =>
    match rest with
    | [] => some (digitsToNat ds, [])
    | c :: _ =>
      if c = '.' ∨ c = 'e' ∨ c = 'E' then none
      else some (digitsToNat ds, rest)

/-- Parse a (possibly negative) integer numeral. -/
def parseNumber (cs : List Char) : Option (Json × List Char) :=
  match cs with
  | [] => none
  | c :: rest =>
    if c = '-' then
      match parseNumAux rest with
      | none => none
      | some (m, r) => some (Json.num (-(m : Int)), r)
    else
      match parseNumAux (c :: rest) with
      | none => none
      | some (m, r) => some (Json.num ((m : Int)), r)

mutual

/-- Fueled JSON value parser (the fuel strictly decreases on every mutual
call; `json_loads` supplies enough fuel for its input). -/
def parseValue : Nat → List Char → Option (Json × List Char)
  | 0, _ => none
  | fuel + 1, cs =>
    match cs with
    | 'n' :: 'u' :: 'l' :: 'l' :: rest => some (Json.null, rest)
    | 't' :: 'r' :: 'u' :: 'e' :: rest => some (Json.bool true, rest)
    | 'f' :: 'a' :: 'l' :: 's' :: 'e' :: rest => some (Json.bool false, rest)
    | '"' :: rest =>
      match parseStringChars rest with
      | none => none
      | some (s, r) => some (Json.str (String.mk s), r)
    | '[' :: rest => parseArrayRest fuel (skipWs rest)
    | '\x7b' :: rest => parseObjRest fuel (skipWs rest)
    | _ => parseNumber cs

/-- After `[` and whitespace: an empty array or the first element. -/
def parseArrayRest : Nat → List Char → Option (Json × List Char)
  | 0, _ => none
  | fuel + 1, cs =>
    match cs with
    | ']' :: rest => some (Json.arr [], rest)
    | _ =>
      match parseValue fuel cs with
      | none => none
      | some (v, r) =>
        match parseElemsTail fuel (skipWs r) with
        | none => none
        | some (vs, r2) => some (Json.arr (v :: vs), r2)

/-- After an array element and whitespace: `]` or `,` and more elements. -/
def parseElemsTail : Nat → List Char → Option (List Json × List Char)
  | 0, _ => none
  | fuel + 1, cs =>
    match cs with
    | ']' :: rest => some ([], rest)
    | ',' :: rest =>
      match parseValue fuel (skipWs rest) with
      | none => none
      | some (v, r) =>
        match parseElemsTail fuel (skipWs r) with
        | none => none
        | some (vs, r2) => some (v :: vs, r2)
    | _ => none

/-- After `\x7b` and whitespace: an empty object or the first field. -/
def parseObjRest : Nat → List Char → Option (Json × List Char)
  | 0, _ => none
  | fuel + 1, cs =>
    match cs with
    | '\x7d' :: rest => some (Json.obj [], rest)
    | '"' :: rest =>
      match parseStringChars rest with
      | none => none
      | some (k, r) =>
        match skipWs r with
        | ':' :: r2 =>
          match parseValue fuel (skipWs r2) with
          | none => none
          | some (v, r3) =>
            match parseFieldsTail fuel (skipWs r3) with
            | none => none
            | some (fs, r4) => some (Json.obj ((String.mk k, v) :: fs), r4)
        | _ => none
    | _ => none

/-- After an object field and whitespace: `\x7d` or `,` and more fields. -/
def parseFieldsTail : Nat → List Char → Option (List (String × Json) × List Char)
  | 0, _ => none
  | fuel + 1, cs =>
    match cs with
    | '\x7d' :: rest => some ([], rest)
    | ',' :: rest =>
      match skipWs rest with
      | '"' :: r =>
        match parseStringChars r with
        | none => none
        | some (k, r1) =>
          match skipWs r1 with
          | ':' :: r2 =>
            match parseValue fuel (skipWs r2) with
            | none => none
            | some (v, r3) =>
              match parseFieldsTail fuel (skipWs r3) with
              | none => none
              | some (fs, r4) => some ((String.mk k, v) :: fs, r4)
          | _ => none
      | _ => none
    | _ => none

end

/-- `json.loads`: whitespace around a single JSON value, full consumption. -/
def json_loads (s : String) : Option Json :=
  match parseValue (s.toList.length + 2) (skipWs s.toList) with
  | some (v, rest) => if (skipWs rest).isEmpty then some v else none
  | none => none

/-- The fence-removing `re.sub(r"```(?:json)?\n?", "", text)` of
`parse_json_response` (`utils.py`), as a left-to-right scan over
non-overlapping matches: three backticks consume an optional `json` tag and
an optional newline; everything else passes through. -/
def stripFences : List Char → List Char
  | '`' :: '`' :: '`' :: 'j' :: 's' :: 'o' :: 'n' :: '\n' :: rest => stripFences rest
  | '`' :: '`' :: '`' :: 'j' :: 's' :: 'o' :: 'n' :: rest => stripFences rest
  | '`' :: '`' :: '`' :: '\n' :: rest => stripFences rest
  | '`' :: '`' :: '`' :: rest => stripFences rest
  | c :: rest => c :: stripFences rest
  | [] => []

/-- Python `text.rstrip("`")`. -/
def rstripBackticks (s : String) : String :=
  String.mk ((s.toList.reverse.dropWhile fun c => c == '`').reverse)

/-- The greedy `re.search(r"\[.*\]", text, re.DOTALL)`: from the first `[`
to the last `]` after it, if any. -/
def bracketSlice (cs : List Char) : Option (List Char) :=
  match cs.dropWhile fun c => !(c == '[') with
  | [] => none
  | b :: rest =>
    match (rest.reverse.dropWhile fun c => !(c == ']')).reverse with
    | [] => none
    | upto => some (b :: upto)

/-- The exceptions `parse_json_response` can raise: the uncaught
`JSONDecodeError` of a failing bracket-fallback parse, the bare no-list
`ValueError`, the malformed-output `ValueError` carrying a 500-character
excerpt, and the `AttributeError` from calling `.values()` on a non-dict. -/
inductive PyExc where
  | jsonDecodeError : PyExc
  | valueErrorNotList : PyExc
  | valueErrorExcerpt (excerpt : String) : PyExc
  | attributeError : PyExc
deriving DecidableEq

instance {ε α : Type} [DecidableEq ε] [DecidableEq α] : DecidableEq (Except ε α) := fun a b =>
  match a, b with
  | Except.error e1, Except.error e2 =>
    if h : e1 = e2 then isTrue (by rw [h]) else isFalse (by simp [h])
  | Except.ok x1, Except.ok x2 =>
    if h : x1 = x2 then isTrue (by rw [h]) else isFalse (by simp [h])
  | Except.error _, Except.ok _ => isFalse fun h => Except.noConfusion h
  | Except.ok _, Except.error _ => isFalse fun h => Except.noConfusion h

/-- The successive reassignments of `text` in `parse_json_response`: strip
markdown fences, strip, right-strip stray backticks, strip again. -/
def fenceStripped (text : String) : String :=
  pyStrip (rstripBackticks (pyStrip (String.mk (stripFences text.toList))))

/-- `parse_json_response` from `utils.py`. -/
def parse_json_response (text : String) : Except PyExc Json :=
  let t := fenceStripped text
  match json_loads t with
  | some (Json.arr xs) => Except.ok (Json.arr xs)
  | some (Json.obj kvs) =>
    match (kvs.map Prod.snd).find? Json.isArr with
    | some v => Except.ok v
    | none => Except.error PyExc.valueErrorNotList
  | some _ => Except.error PyExc.attributeError
  | none =>
    match bracketSlice t.toList with
    | some sub =>
      match json_loads (String.mk sub) with
      | some v => Except.ok v
      | none => Except.error PyExc.jsonDecodeError
    | none => Except.error (PyExc.valueErrorExcerpt (String.mk (t.toList.take 500)))

/-- Whether a result is the malformed-model-output condition (the
`ValueError` carrying a diagnostic excerpt). -/
def isMalformedExcerptError : Except PyExc Json → Bool
  | Except.error (PyExc.valueErrorExcerpt _) => true
  | _ => false

/-- C6 counterexample: on `"42"` every parse strategy fails (the direct parse
yields a non-list scalar, and no bracketed substring exists for the
fallback), yet the function raises an `AttributeError` from `result.values()`
— a different exception kind with no excerpt — instead of the
malformed-model-output condition. -/
theorem parse_json_response_malformed_counterexample :
    parse_json_response "42" = Except.error PyExc.attributeError ∧
    isMalformedExcerptError (parse_json_response "42") = false ∧
    bracketSlice (fenceStripped "42").toList = none := by
  refine ⟨by decide, by decide, by decide⟩

/-- C6 (amended): when the direct JSON parse of the fence-stripped text fails
and no bracketed substring exists, `parse_json_response` fails with the
malformed-model-output condition carrying an excerpt of at most 500
characters of the (fence-stripped) text.  Inputs whose direct parse succeeds
with a non-array value instead raise a different error without an excerpt
(see the counterexample), and a failing bracketed-substring parse propagates
the JSON decode error. -/
theorem parse_json_response_malformed (text : String)
    (hparse : json_loads (fenceStripped text) = none)
    (hbr : bracketSlice (fenceStripped text).toList = none) :
    parse_json_response text = Except.error
      (PyExc.valueErrorExcerpt (String.mk ((fenceStripped text).toList.take 500))) ∧
    (String.mk ((fenceStripped text).toList.take 500)).length ≤ 500 := by
  constructor
  · simp only [parse_json_response, hparse, hbr]
  · show ((fenceStripped text).toList.take 500).length ≤ 500
    rw [List.length_take]
    omega

/-- Witness for C6: a concrete prose-only response takes the
malformed-output path with its bounded excerpt. -/
theorem parse_json_response_malformed_witness :
    parse_json_response "no json here at all" = Except.error
      (PyExc.valueErrorExcerpt
        (String.mk ((fenceStripped "no json here at all").toList.take 500))) ∧
    (String.mk ((fenceStripped "no json here at all").toList.take 500)).length ≤ 500 :=
  parse_json_response_malformed "no json here at all" (by decide) (by decide)

/-- Big-endian decimal digits of `n` (fueled; `natDigits` supplies `n + 1`,
which always suffices since the argument shrinks by a factor of 10). -/
def natDigitsAux : Nat → Nat → List Nat
  | 0, _ => []
  | fuel + 1, n => if n < 10 then [n] else natDigitsAux fuel (n / 10) ++ [n % 10]

/-- Big-endian decimal digits of `n`. -/
def natDigits (n : Nat) : List Nat := natDigitsAux (n + 1) n

/-- The character of a decimal digit. -/
def digitChar (d : Nat) : Char := Char.ofNat (48 + d)

/-- Decimal rendering of a natural number. -/
def serNat (n : Nat) : List Char := (natDigits n).map digitChar

/-- Decimal rendering of an integer. -/
def serInt (n : Int) : List Char :=
  if n < 0 then '-' :: serNat (-n).toNat else serNat n.toNat

/-- JSON string escaping: quote and backslash get a backslash; every other
character is emitted literally. -/
def escapeChars : List Char → List Char
  | [] => []
  | c :: cs => if c = '"' ∨ c = '\\' then '\\' :: c :: escapeChars cs else c :: escapeChars cs

mutual

/-- Modelled from the spec: the canonical JSON serialization of a value (the
spec's round-trip property `parse(serialize(X))`; the repository itself never
serializes these payloads — the model's response plays that role). -/
def serChars : Json → List Char
  | Json.null => ['n', 'u', 'l', 'l']
  | Json.bool true => ['t', 'r', 'u', 'e']
  | Json.bool false => ['f', 'a', 'l', 's', 'e']
  | Json.num n => serInt n
  | Json.str s => '"' :: (escapeChars s.toList ++ ['"'])
  | Json.arr l => '[' :: serArrBody l
  | Json.obj kvs => '\x7b' :: serObjBody kvs
termination_by structural v => v

/-- Array body after `[`: elements and the closing bracket. -/
def serArrBody : List Json → List Char
  | [] => [']']
  | v :: vs => serChars v ++ serArrTail vs
termination_by structural l => l

/-- Array continuation: `,` before each further element, then `]`. -/
def serArrTail : List Json → List Char
  | [] => [']']
  | v :: vs => ',' :: (serChars v ++ serArrTail vs)
termination_by structural l => l

/-- Object body after the opening brace: fields and the closing brace. -/
def serObjBody : List (String × Json) → List Char
  | [] => ['\x7d']
  | (k, v) :: fs =>
    '"' :: (escapeChars k.toList ++ ('"' :: (':' :: (serChars v ++ serObjTail fs))))
termination_by structural l => l

/-- Object continuation: `,` before each further field, then the brace. -/
def serObjTail : List (String × Json) → List Char
  | [] => ['\x7d']
  | (k, v) :: fs =>
    ',' :: ('"' :: (escapeChars k.toList ++ ('"' :: (':' :: (serChars v ++ serObjTail fs)))))
termination_by structural l => l

end

/-- Modelled from the spec: `serialize(X)`, the canonical JSON text of `X`. -/
def serialize (v : Json) : String := String.mk (serChars v)

/-- What may follow a serialized value without disturbing its parse: nothing,
or a character that cannot extend a numeral. -/
def okAfter : List Char → Prop
  | [] => True
  | c :: _ => c.isDigit = false ∧ c ≠ '.' ∧ c ≠ 'e' ∧ c ≠ 'E'

theorem natDigitsAux_lt_ten : ∀ fuel n, n < fuel → ∀ d ∈ natDigitsAux fuel n, d < 10 := by
  intro fuel
  induction fuel with
  | zero => intro n h; omega
  | succ fuel ih =>
    intro n h d hd
    by_cases h10 : n < 10
    · simp only [natDigitsAux, h10, if_true, List.mem_singleton] at hd
      omega
    · simp only [natDigitsAux, h10, if_false, List.mem_append, List.mem_singleton] at hd
      rcases hd with hd | hd
      · exact ih (n / 10) (by omega) d hd
      · omega

theorem natDigitsAux_ne_nil : ∀ fuel n, n < fuel → natDigitsAux fuel n ≠ [] := by
  intro fuel
  induction fuel with
  | zero => intro n h; omega
  | succ fuel ih =>
    intro n h
    by_cases h10 : n < 10
    · simp [natDigitsAux, h10]
    · simp [natDigitsAux, h10]

theorem digitsToNat_append_one (ds : List Nat) (d : Nat) :
    digitsToNat (ds ++ [d]) = 10 * digitsToNat ds + d := by
  unfold digitsToNat
  rw [List.foldl_append]
  rfl

theorem digitsToNat_natDigitsAux : ∀ fuel n, n < fuel →
    digitsToNat (natDigitsAux fuel n) = n := by
  intro fuel
  induction fuel with
  | zero => intro n h; omega
  | succ fuel ih =>
    intro n h
    by_cases h10 : n < 10
    · simp only [natDigitsAux, h10, if_true]
      show 10 * 0 + n = n
      omega
    · simp only [natDigitsAux, h10, if_false]
      rw [digitsToNat_append_one, ih (n / 10) (by omega)]
      omega

theorem digitChar_isDigit (d : Nat) (h : d < 10) : (digitChar d).isDigit = true := by
  interval_cases d <;> decide

theorem digitChar_val (d : Nat) (h : d < 10) : (digitChar d).toNat - 48 = d := by
  interval_cases d <;> decide

theorem parseDigits_map_digitChar (ds : List Nat) (rest : List Char)
    (hds : ∀ d ∈ ds, d < 10) (hrest : ∀ c ∈ rest.head?, c.isDigit = false) :
    parseDigits (ds.map digitChar ++ rest) = (ds, rest) := by
  induction ds with
  | nil =>
    cases rest with
    | nil => rfl
    | cons c r =>
      have := hrest c (by rfl)
      simp [parseDigits, this]
  | cons d ds ih =>
    have hd : d < 10 := hds d (by simp)
    have ih2 := ih fun x hx => hds x (by simp [hx])
    simp only [List.map_cons, List.cons_append, parseDigits, digitChar_isDigit d hd, if_true,
      List.append_eq, ih2, digitChar_val d hd]

theorem parseNumAux_serNat (n : Nat) (rest : List Char) (hok : okAfter rest) :
    parseNumAux (serNat n ++ rest) = some (n, rest) := by
  have hd : ∀ d ∈ natDigits n, d < 10 := natDigitsAux_lt_ten (n + 1) n (by omega)
  have hne : natDigits n ≠ [] := natDigitsAux_ne_nil (n + 1) n (by omega)
  have hval : digitsToNat (natDigits n) = n := digitsToNat_natDigitsAux (n + 1) n (by omega)
  have hrest : ∀ c ∈ rest.head?, c.isDigit = false := by
    cases rest with
    | nil => intro c hc; cases hc
    | cons c r =>
      intro x hx
      injection hx with hx2
      subst hx2
      exact hok.1
  rw [parseNumAux, show serNat n ++ rest = (natDigits n).map digitChar ++ rest from rfl,
    parseDigits_map_digitChar (natDigits n) rest hd hrest]
  cases hng : natDigits n with
  | nil => exact absurd hng hne
  | cons d0 dt =>
    rw [← hng]
    simp only [hng, List.cons.injEq]
    cases rest with
    | nil => simp [← hng, hval]
    | cons c r =>
      have h1 : ¬ (c = '.' ∨ c = 'e' ∨ c = 'E') := by
        intro hc
        rcases hc with hc | hc | hc <;> exact absurd hc (by
          first
          | exact hok.2.1
          | exact hok.2.2.1
          | exact hok.2.2.2)
      simp [h1, ← hng, hval]

theorem parseStringChars_escape (l rest : List Char) :
    parseStringChars (escapeChars l ++ ('"' :: rest)) = some (l, rest) := by
  induction l with
  | nil => rfl
  | cons c l ih =>
    by_cases hc : c = '"' ∨ c = '\\'
    · have hesc : escChar c = some c := by
        rcases hc with hc | hc <;> subst hc <;> rfl
      simp only [escapeChars, hc, if_true, List.cons_append, parseStringChars]
      simp [parseEscape, hesc, ih]
    · push_neg at hc
      simp [escapeChars, hc.1, hc.2, parseStringChars, ih]

theorem skipWs_cons_not (c : Char) (t : List Char) (h : jsonWs c = false) :
    skipWs (c :: t) = c :: t := by
  simp [skipWs, List.dropWhile_cons, h]

theorem digitChar_facts (d : Nat) (h : d < 10) :
    jsonWs (digitChar d) = false ∧ digitChar d ≠ 'n' ∧ digitChar d ≠ 't' ∧
    digitChar d ≠ 'f' ∧ digitChar d ≠ '"' ∧ digitChar d ≠ '[' ∧ digitChar d ≠ '\x7b' ∧
    digitChar d ≠ '-' ∧ digitChar d ≠ ']' ∧ digitChar d ≠ '\x7d' := by
  interval_cases d <;> exact ⟨rfl, by decide, by decide, by decide, by decide, by decide,
    by decide, by decide, by decide, by decide⟩

theorem serNat_head (n : Nat) : ∃ d dt, natDigits n = d :: dt ∧ d < 10 := by
  cases hng : natDigits n with
  | nil => exact absurd hng (natDigitsAux_ne_nil (n + 1) n (by omega))
  | cons d dt =>
    refine ⟨d, dt, rfl, ?_⟩
    exact natDigitsAux_lt_ten (n + 1) n (by omega) d (by rw [natDigits] at hng; rw [hng]; simp)

theorem serChars_head (v : Json) : ∃ c t, serChars v = c :: t ∧ jsonWs c = false ∧
    c ≠ ']' ∧ c ≠ '\x7d' := by
  cases v with
  | null => exact ⟨'n', _, rfl, rfl, by decide, by decide⟩
  | bool b =>
    cases b with
    | true => exact ⟨'t', _, rfl, rfl, by decide, by decide⟩
    | false => exact ⟨'f', _, rfl, rfl, by decide, by decide⟩
  | num n =>
    by_cases hn : n < 0
    · exact ⟨'-', serNat (-n).toNat, by simp [serChars, serInt, hn], rfl,
        by decide, by decide⟩
    · obtain ⟨d, dt, hng, hd⟩ := serNat_head n.toNat
      obtain ⟨hws, _, _, _, _, _, _, _, hrb, hbr⟩ := digitChar_facts d hd
      exact ⟨digitChar d, dt.map digitChar,
        by simp [serChars, serInt, hn, serNat, hng], hws, hrb, hbr⟩
  | str s => exact ⟨'"', _, rfl, rfl, by decide, by decide⟩
  | arr l => exact ⟨'[', _, rfl, rfl, by decide, by decide⟩
  | obj kvs => exact ⟨'\x7b', _, rfl, rfl, by decide, by decide⟩

theorem serChars_length_pos (v : Json) : 1 ≤ (serChars v).length := by
  obtain ⟨c, t, h, -, -, -⟩ := serChars_head v
  rw [h]
  simp

theorem serArrTail_length_pos (vs : List Json) : 1 ≤ (serArrTail vs).length := by
  cases vs <;> simp [serArrTail]

theorem serObjTail_length_pos (fs : List (String × Json)) : 1 ≤ (serObjTail fs).length := by
  cases fs with
  | nil => simp [serObjTail]
  | cons f fs =>
    obtain ⟨k, v⟩ := f
    simp [serObjTail]

theorem okAfter_serArrTail (vs : List Json) (rest : List Char) :
    okAfter (serArrTail vs ++ rest) := by
  cases vs with
  | nil => exact ⟨by decide, by decide, by decide, by decide⟩
  | cons v vs => exact ⟨by decide, by decide, by decide, by decide⟩

theorem okAfter_serObjTail (fs : List (String × Json)) (rest : List Char) :
    okAfter (serObjTail fs ++ rest) := by
  cases fs with
  | nil => exact ⟨by decide, by decide, by decide, by decide⟩
  | cons f fs =>
    obtain ⟨k, v⟩ := f
    exact ⟨by decide, by decide, by decide, by decide⟩

theorem skipWs_serArrTail (vs : List Json) (rest : List Char) :
    skipWs (serArrTail vs ++ rest) = serArrTail vs ++ rest := by
  cases vs with
  | nil => exact skipWs_cons_not _ _ rfl
  | cons v vs => exact skipWs_cons_not _ _ rfl

theorem skipWs_serObjTail (fs : List (String × Json)) (rest : List Char) :
    skipWs (serObjTail fs ++ rest) = serObjTail fs ++ rest := by
  cases fs with
  | nil => exact skipWs_cons_not _ _ rfl
  | cons f fs =>
    obtain ⟨k, v⟩ := f
    exact skipWs_cons_not _ _ rfl

theorem parseValue_not_special (fuel : Nat) (c : Char) (t : List Char) (h1 : c ≠ 'n')
    (h2 : c ≠ 't') (h3 : c ≠ 'f') (h4 : c ≠ '"') (h5 : c ≠ '[') (h6 : c ≠ '\x7b') :
    parseValue (fuel + 1) (c :: t) = parseNumber (c :: t) := by
  rw [parseValue.eq_def]
  split <;> simp_all

theorem parseArrayRest_cons_ne (fuel : Nat) (c : Char) (t : List Char) (h : c ≠ ']') :
    parseArrayRest (fuel + 1) (c :: t) =
      match parseValue fuel (c :: t) with
      | none => none
      | some (v, r) =>
        match parseElemsTail fuel (skipWs r) with
        | none => none
        | some (vs, r2) => some (Json.arr (v :: vs), r2) := by
  rw [parseArrayRest.eq_def]
  split <;> simp_all

theorem parseNumber_serInt (n : Int) (rest : List Char) (hok : okAfter rest) :
    parseNumber (serInt n ++ rest) = some (Json.num n, rest) := by
  by_cases hn : n < 0
  · have hcast : (((-n).toNat : Int)) = -n := Int.toNat_of_nonneg (by omega)
    simp only [serInt, hn, if_true, List.cons_append, parseNumber]
    rw [parseNumAux_serNat (-n).toNat rest hok]
    show some (Json.num (-(((-n).toNat : Int))), rest) = some (Json.num n, rest)
    rw [show -(((-n).toNat : Int)) = n from by omega]
  · have hcast : ((n.toNat : Int)) = n := Int.toNat_of_nonneg (by omega)
    obtain ⟨d, dt, hng, hd⟩ := serNat_head n.toNat
    obtain ⟨-, -, -, -, -, -, -, hdm, -, -⟩ := digitChar_facts d hd
    have hser : serNat n.toNat = digitChar d :: dt.map digitChar := by
      simp [serNat, hng]
    simp only [serInt, hn, if_false, hser, List.cons_append, parseNumber]
    rw [if_neg hdm, show digitChar d :: (dt.map digitChar ++ rest)
      = serNat n.toNat ++ rest from by simp [hser]]
    rw [parseNumAux_serNat n.toNat rest hok]
    show some (Json.num ((n.toNat : Int)), rest) = some (Json.num n, rest)
    rw [hcast]

theorem parseElemsTail_ser (N : Nat)
    (ih : ∀ w : Json, sizeOf w ≤ N → ∀ fuel rest, (serChars w).length + 1 ≤ fuel →
      okAfter rest → parseValue fuel (serChars w ++ rest) = some (w, rest)) :
    ∀ (vs : List Json) (fuel : Nat) (rest : List Char), (∀ v ∈ vs, sizeOf v ≤ N) →
      (serArrTail vs).length ≤ fuel → okAfter rest →
      parseElemsTail fuel (serArrTail vs ++ rest) = some (vs, rest) := by
  intro vs
  induction vs with
  | nil =>
    intro fuel rest hv hf hok
    cases fuel with
    | zero => simp [serArrTail] at hf
    | succ f => rfl
  | cons v vs ihl =>
    intro fuel rest hv hf hok
    have hlv := serChars_length_pos v
    have hlt := serArrTail_length_pos vs
    simp only [serArrTail, List.length_cons, List.length_append] at hf
    cases fuel with
    | zero => omega
    | succ f =>
      obtain ⟨c, t, hsc, hws, -, -⟩ := serChars_head v
      show parseElemsTail (f + 1) (',' :: ((serChars v ++ serArrTail vs) ++ rest))
        = some (v :: vs, rest)
      simp only [parseElemsTail]
      rw [List.append_assoc, hsc, List.cons_append, skipWs_cons_not c _ hws,
        ← List.cons_append, ← hsc,
        ih v (hv v (by simp)) f _ (by omega) (okAfter_serArrTail vs rest)]
      simp only [skipWs_serArrTail,
        ihl f rest (fun x hx => hv x (by simp [hx])) (by omega) hok]

theorem parseFieldsTail_ser (N : Nat)
    (ih : ∀ w : Json, sizeOf w ≤ N → ∀ fuel rest, (serChars w).length + 1 ≤ fuel →
      okAfter rest → parseValue fuel (serChars w ++ rest) = some (w, rest)) :
    ∀ (fs : List (String × Json)) (fuel : Nat) (rest : List Char),
      (∀ p ∈ fs, sizeOf p.2 ≤ N) →
      (serObjTail fs).length ≤ fuel → okAfter rest →
      parseFieldsTail fuel (serObjTail fs ++ rest) = some (fs, rest) := by
  intro fs
  induction fs with
  | nil =>
    intro fuel rest hv hf hok
    cases fuel with
    | zero => simp [serObjTail] at hf
    | succ f => rfl
  | cons p fs ihl =>
    obtain ⟨k, v⟩ := p
    intro fuel rest hv hf hok
    have hlv := serChars_length_pos v
    have hlt := serObjTail_length_pos fs
    simp only [serObjTail, List.length_cons, List.length_append] at hf
    cases fuel with
    | zero => omega
    | succ f =>
      obtain ⟨c, t, hsc, hws, -, -⟩ := serChars_head v
      have hskipv : skipWs ((serChars v ++ serObjTail fs) ++ rest)
          = (serChars v ++ serObjTail fs) ++ rest := by
        rw [List.append_assoc, hsc, List.cons_append]
        exact skipWs_cons_not c _ hws
      show parseFieldsTail (f + 1)
        ((',' :: ('"' :: (escapeChars k.toList
          ++ ('"' :: (':' :: (serChars v ++ serObjTail fs)))))) ++ rest)
        = some ((k, v) :: fs, rest)
      simp only [List.cons_append, parseFieldsTail]
      rw [skipWs_cons_not '"' _ rfl]
      rw [List.append_assoc, List.cons_append, List.cons_append]
      simp only [parseStringChars_escape]
      rw [skipWs_cons_not ':' _ rfl]
      have hskipv2 : skipWs (serChars v ++ (serObjTail fs ++ rest))
          = serChars v ++ (serObjTail fs ++ rest) := by
        rw [hsc, List.cons_append]
        exact skipWs_cons_not c _ hws
      simp only [hskipv, hskipv2]
      try rw [List.append_assoc]
      rw [ih v (hv (k, v) (by simp)) f (serObjTail fs ++ rest) (by omega)
        (okAfter_serObjTail fs rest)]
      simp only [skipWs_serObjTail,
        ihl f rest (fun x hx => hv x (by simp [hx])) (by omega) hok]
      rfl

theorem parseValue_ser : ∀ (N : Nat) (v : Json), sizeOf v ≤ N → ∀ fuel rest,
    (serChars v).length + 1 ≤ fuel → okAfter rest →
    parseValue fuel (serChars v ++ rest) = some (v, rest) := by
  intro N
  induction N with
  | zero =>
    intro v hv
    exfalso
    cases v <;> simp at hv
  | succ N ihN =>
    intro v hv fuel rest hfuel hok
    cases v with
    | null =>
      cases fuel with
      | zero => simp [serChars] at hfuel
      | succ f => rfl
    | bool b =>
      cases b with
      | true =>
        cases fuel with
        | zero => simp [serChars] at hfuel
        | succ f => rfl
      | false =>
        cases fuel with
        | zero => simp [serChars] at hfuel
        | succ f => rfl
    | num n =>
      cases fuel with
      | zero =>
        have := serChars_length_pos (Json.num n)
        omega
      | succ f =>
        by_cases hn : n < 0
        · have hser : serInt n = '-' :: serNat (-n).toNat := by simp [serInt, hn]
          show parseValue (f + 1) (serInt n ++ rest) = some (Json.num n, rest)
          rw [hser, List.cons_append,
            parseValue_not_special f '-' _ (by decide) (by decide) (by decide) (by decide)
              (by decide) (by decide),
            ← List.cons_append, ← hser, parseNumber_serInt n rest hok]
        · obtain ⟨d, dt, hng, hd⟩ := serNat_head n.toNat
          obtain ⟨-, hc1, hc2, hc3, hc4, hc5, hc6, -, -, -⟩ := digitChar_facts d hd
          have hser : serInt n = digitChar d :: dt.map digitChar := by
            simp [serInt, hn, serNat, hng]
          show parseValue (f + 1) (serInt n ++ rest) = some (Json.num n, rest)
          rw [hser, List.cons_append,
            parseValue_not_special f (digitChar d) _ hc1 hc2 hc3 hc4 hc5 hc6,
            ← List.cons_append, ← hser, parseNumber_serInt n rest hok]
    | str s =>
      cases fuel with
      | zero =>
        have := serChars_length_pos (Json.str s)
        omega
      | succ f =>
        show parseValue (f + 1) (('"' :: (escapeChars s.toList ++ ['"'])) ++ rest)
          = some (Json.str s, rest)
        simp only [List.cons_append, parseValue]
        rw [List.append_assoc, show (['"'] : List Char) ++ rest = '"' :: rest from rfl,
          parseStringChars_escape]
        rfl
    | arr l =>
      cases fuel with
      | zero =>
        have := serChars_length_pos (Json.arr l)
        omega
      | succ f =>
        show parseValue (f + 1) (('[' :: serArrBody l) ++ rest) = some (Json.arr l, rest)
        simp only [List.cons_append, parseValue]
        cases l with
        | nil =>
          show parseArrayRest f (skipWs (']' :: rest)) = some (Json.arr [], rest)
          rw [skipWs_cons_not ']' rest rfl]
          cases f with
          | zero => simp [serChars, serArrBody] at hfuel
          | succ f2 => rfl
        | cons v vs =>
          obtain ⟨c, t, hsc, hws, hnrb, -⟩ := serChars_head v
          have hlv := serChars_length_pos v
          have hlt := serArrTail_length_pos vs
          have hlen : (serChars (Json.arr (v :: vs))).length
              = 1 + ((serChars v).length + (serArrTail vs).length) := by
            simp [serChars, serArrBody, List.length_append]
            omega
          have hs1 : sizeOf (Json.arr (v :: vs)) = 1 + sizeOf (v :: vs) := by simp
          have hs2 : sizeOf (v :: vs) = 1 + sizeOf v + sizeOf vs := by simp
          show parseArrayRest f (skipWs ((serChars v ++ serArrTail vs) ++ rest))
            = some (Json.arr (v :: vs), rest)
          rw [List.append_assoc]
          have hskip : skipWs (serChars v ++ (serArrTail vs ++ rest))
              = serChars v ++ (serArrTail vs ++ rest) := by
            rw [hsc, List.cons_append]
            exact skipWs_cons_not c _ hws
          rw [hskip]
          cases f with
          | zero => omega
          | succ f2 =>
            rw [hsc, List.cons_append, parseArrayRest_cons_ne f2 c _ hnrb,
              ← List.cons_append, ← hsc,
              ihN v (by omega) f2 (serArrTail vs ++ rest) (by omega)
                (okAfter_serArrTail vs rest)]
            simp only [skipWs_serArrTail,
              parseElemsTail_ser N ihN vs f2 rest
                (fun x hx => by
                  have := List.sizeOf_lt_of_mem hx
                  omega)
                (by omega) hok]
    | obj kvs =>
      cases fuel with
      | zero =>
        have := serChars_length_pos (Json.obj kvs)
        omega
      | succ f =>
        show parseValue (f + 1) (('\x7b' :: serObjBody kvs) ++ rest)
          = some (Json.obj kvs, rest)
        simp only [List.cons_append, parseValue]
        cases kvs with
        | nil =>
          show parseObjRest f (skipWs ('\x7d' :: rest)) = some (Json.obj [], rest)
          rw [skipWs_cons_not '\x7d' rest rfl]
          cases f with
          | zero => simp [serChars, serObjBody] at hfuel
          | succ f2 => rfl
        | cons p fs =>
          obtain ⟨k, v⟩ := p
          obtain ⟨c, t, hsc, hws, -, -⟩ := serChars_head v
          have hlv := serChars_length_pos v
          have hlt := serObjTail_length_pos fs
          have hlen : (serChars (Json.obj ((k, v) :: fs))).length
              = 1 + (1 + ((escapeChars k.toList).length
                + (1 + (1 + ((serChars v).length + (serObjTail fs).length))))) := by
            simp [serChars, serObjBody, List.length_append]
            omega
          have hs1 : sizeOf (Json.obj ((k, v) :: fs)) = 1 + sizeOf ((k, v) :: fs) := by simp
          have hs2 : sizeOf ((k, v) :: fs) = 1 + sizeOf (k, v) + sizeOf fs := by simp
          have hs3 : sizeOf v < sizeOf (k, v) := by simp
          show parseObjRest f
            (skipWs (('"' :: (escapeChars k.toList
              ++ ('"' :: (':' :: (serChars v ++ serObjTail fs))))) ++ rest))
            = some (Json.obj ((k, v) :: fs), rest)
          rw [List.cons_append, skipWs_cons_not '"' _ rfl]
          cases f with
          | zero => omega
          | succ f2 =>
            simp only [parseObjRest]
            rw [List.append_assoc, List.cons_append, List.cons_append]
            simp only [parseStringChars_escape]
            rw [skipWs_cons_not ':' _ rfl]
            have hskipv : skipWs ((serChars v ++ serObjTail fs) ++ rest)
                = (serChars v ++ serObjTail fs) ++ rest := by
              rw [List.append_assoc, hsc, List.cons_append]
              exact skipWs_cons_not c _ hws
            have hskipv2 : skipWs (serChars v ++ (serObjTail fs ++ rest))
                = serChars v ++ (serObjTail fs ++ rest) := by
              rw [hsc, List.cons_append]
              exact skipWs_cons_not c _ hws
            simp only [hskipv, hskipv2]
            try rw [List.append_assoc]
            rw [ihN v (by omega) f2 (serObjTail fs ++ rest) (by omega)
              (okAfter_serObjTail fs rest)]
            simp only [skipWs_serObjTail,
              parseFieldsTail_ser N ihN fs f2 rest
                (fun p hp => by
                  have h1 := List.sizeOf_lt_of_mem hp
                  have h2 : sizeOf p.2 < sizeOf p := by
                    obtain ⟨k2, v2⟩ := p
                    simp
                  omega)
                (by omega) hok]
            rfl

theorem json_loads_serialize (v : Json) : json_loads (serialize v) = some v := by
  obtain ⟨c, t, hsc, hws, -, -⟩ := serChars_head v
  have h := parseValue_ser (sizeOf v) v (Nat.le_refl _)
    ((serChars v).length + 2) [] (by omega) trivial
  rw [List.append_nil] at h
  simp only [json_loads]
  have htl : (serialize v).toList = serChars v := rfl
  rw [htl, show skipWs (serChars v) = serChars v from by
    rw [hsc]; exact skipWs_cons_not c t hws, h]
  rfl

theorem stripFences_cons_ne (c : Char) (rest : List Char) (hc : c ≠ '`') :
    stripFences (c :: rest) = c :: stripFences rest :=
  stripFences.eq_5 c rest (fun _ h _ => absurd h hc) (fun _ h _ => absurd h hc)
    (fun _ h _ => absurd h hc) (fun _ h _ => absurd h hc)

theorem stripFences_append_no_bt (xs ys : List Char) (h : '`' ∉ xs) :
    stripFences (xs ++ ys) = xs ++ stripFences ys := by
  induction xs with
  | nil => rfl
  | cons a t ih =>
    have ha : a ≠ '`' := fun hh => h (by simp [hh])
    rw [List.cons_append, stripFences_cons_ne a _ ha, ih (fun hh => h (by simp [hh]))]
    rfl

theorem stripFences_id (cs : List Char) (h : '`' ∉ cs) : stripFences cs = cs := by
  have h2 := stripFences_append_no_bt cs [] h
  rw [show stripFences ([] : List Char) = [] from rfl, List.append_nil] at h2
  exact h2

theorem head_dropWhile_false (q : Char → Bool) (l : List Char) :
    ∀ c ∈ (l.dropWhile q).head?, q c = false := by
  induction l with
  | nil => intro c hc; cases hc
  | cons a t ih =>
    by_cases ha : q a
    · simpa [List.dropWhile_cons, ha] using ih
    · intro c hc
      simp only [List.dropWhile_cons, ha, if_false] at hc
      simp only [Bool.false_eq_true, if_false, List.head?_cons, Option.mem_def,
        Option.some.injEq] at hc
      rw [← hc]
      exact Bool.eq_false_iff.mpr ha

theorem stripChars_eq_self (cs : List Char) (h1 : ∀ c ∈ cs.head?, pyWs c = false)
    (h2 : ∀ c ∈ cs.getLast?, pyWs c = false) : stripChars cs = cs := by
  unfold stripChars
  have hd : cs.dropWhile pyWs = cs := by
    cases cs with
    | nil => rfl
    | cons a t =>
      have := h1 a rfl
      simp [List.dropWhile_cons, this]
  rw [hd]
  rw [List.rdropWhile_eq_self_iff]
  intro hl
  have hgl : cs.getLast? = some (cs.getLast hl) := List.getLast?_eq_getLast cs hl
  have := h2 (cs.getLast hl) (by rw [hgl]; rfl)
  simp [this]

theorem rstripBackticks_eq_self (s : String)
    (h : ∀ c ∈ s.toList.getLast?, (c == '`') = false) : rstripBackticks s = s := by
  unfold rstripBackticks
  have hrw : s.toList.reverse.dropWhile (fun c => c == '`') = s.toList.reverse := by
    cases hrev : s.toList.reverse with
    | nil => rfl
    | cons a t =>
      have hL : s.toList.getLast? = some a := by
        rw [← List.head?_reverse, hrev]
        rfl
      have := h a (by rw [hL]; rfl)
      simp [List.dropWhile_cons, this]
  rw [hrw, List.reverse_reverse]
  rfl

theorem serArrTail_ends (vs : List Json) : ∃ pre, serArrTail vs = pre ++ [']'] := by
  induction vs with
  | nil => exact ⟨[], rfl⟩
  | cons v vs ih =>
    obtain ⟨pre, hpre⟩ := ih
    exact ⟨',' :: (serChars v ++ pre), by simp [serArrTail, hpre]⟩

theorem serChars_arr_shape (l : List Json) :
    ∃ mid, serChars (Json.arr l) = '[' :: (mid ++ [']']) := by
  cases l with
  | nil => exact ⟨[], rfl⟩
  | cons v vs =>
    obtain ⟨pre, hpre⟩ := serArrTail_ends vs
    exact ⟨serChars v ++ pre, by simp [serChars, serArrBody, hpre]⟩

theorem dropWhile_append_head (p : Char → Bool) (l1 l2 : List Char)
    (h : ∀ c ∈ l2.head?, p c = false) :
    (l1 ++ l2).dropWhile p = l1.dropWhile p ++ l2 := by
  induction l1 with
  | nil =>
    cases l2 with
    | nil => rfl
    | cons a t =>
      have := h a rfl
      simp [List.dropWhile_cons, this]
  | cons a t ih =>
    by_cases ha : p a
    · simp [List.dropWhile_cons, ha, ih]
    · simp [List.dropWhile_cons, ha]

theorem dropWhile_append_all (p : Char → Bool) (l1 l2 : List Char)
    (h : ∀ c ∈ l1, p c = true) :
    (l1 ++ l2).dropWhile p = l2.dropWhile p := by
  induction l1 with
  | nil => rfl
  | cons a t ih =>
    rw [List.cons_append, List.dropWhile_cons, if_pos (h a (List.mem_cons_self a t))]
    exact ih fun c hc => h c (List.mem_cons_of_mem a hc)

theorem stripChars_bracket (p mid : List Char) :
    stripChars (p ++ ('[' :: (mid ++ [']']))) = p.dropWhile pyWs ++ ('[' :: (mid ++ [']'])) := by
  unfold stripChars
  rw [dropWhile_append_head pyWs p _ (fun c hc => by
    simp only [List.head?_cons, Option.mem_def, Option.some.injEq] at hc
    subst hc
    decide)]
  rw [show p.dropWhile pyWs ++ ('[' :: (mid ++ [']']))
      = (p.dropWhile pyWs ++ ('[' :: mid)) ++ [']'] from by simp]
  rw [List.rdropWhile_concat_neg pyWs _ ']' (by decide)]

theorem stripChars_bracket_nil (mid : List Char) :
    stripChars ('[' :: (mid ++ [']'])) = '[' :: (mid ++ [']']) := by
  have h := stripChars_bracket [] mid
  simpa using h

theorem stripChars_bracket_nl (mid : List Char) :
    stripChars ('[' :: ((mid ++ [']']) ++ ['\n'])) = '[' :: (mid ++ [']']) := by
  unfold stripChars
  rw [List.dropWhile_cons, if_neg (by decide)]
  rw [show '[' :: ((mid ++ [']']) ++ ['\n']) = ('[' :: (mid ++ [']'])) ++ ['\n'] from by simp]
  rw [List.rdropWhile_concat_pos pyWs _ '\n' (by decide)]
  rw [show '[' :: (mid ++ [']']) = ('[' :: mid) ++ [']'] from by simp]
  rw [List.rdropWhile_concat_neg pyWs _ ']' (by decide)]

theorem getLast?_bracket (q mid : List Char) :
    (q ++ ('[' :: (mid ++ [']']))).getLast? = some ']' := by
  rw [show q ++ ('[' :: (mid ++ [']'])) = (q ++ ('[' :: mid)) ++ [']'] from by simp]
  exact List.getLast?_concat _

theorem getLast?_bracket_nil (mid : List Char) :
    ('[' :: (mid ++ [']'])).getLast? = some ']' := by
  have h := getLast?_bracket [] mid
  simpa using h

theorem bracketSlice_shape (q mid : List Char) (hq : '[' ∉ q) :
    bracketSlice (q ++ ('[' :: (mid ++ [']']))) = some ('[' :: (mid ++ [']'])) := by
  unfold bracketSlice
  rw [dropWhile_append_all _ q _ (fun c hc => by
    have hcne : c ≠ '[' := fun hh => hq (hh ▸ hc)
    simp [hcne])]
  rw [List.dropWhile_cons, if_neg (by decide)]
  show (match ((mid ++ [']']).reverse.dropWhile fun c => !(c == ']')).reverse with
    | [] => none
    | upto => some ('[' :: upto)) = some ('[' :: (mid ++ [']']))
  have h2 : ((mid ++ [']']).reverse.dropWhile fun c => !(c == ']')).reverse = mid ++ [']'] := by
    rw [List.reverse_append, show ([']'] : List Char).reverse = [']'] from rfl,
      List.singleton_append, List.dropWhile_cons, if_neg (by decide)]
    simp
  rw [h2]
  cases h3 : mid ++ [']'] with
  | nil => exact absurd h3 (by simp)
  | cons a t => rfl

theorem pyStrip_mk_serArr (xs : List Json) :
    pyStrip (String.mk (serChars (Json.arr xs))) = String.mk (serChars (Json.arr xs)) := by
  obtain ⟨mid, hmid⟩ := serChars_arr_shape xs
  unfold pyStrip
  rw [show (String.mk (serChars (Json.arr xs))).toList = serChars (Json.arr xs) from rfl,
      hmid, stripChars_bracket_nil]

theorem rstrip_mk_serArr (xs : List Json) :
    rstripBackticks (String.mk (serChars (Json.arr xs))) = String.mk (serChars (Json.arr xs)) := by
  obtain ⟨mid, hmid⟩ := serChars_arr_shape xs
  apply rstripBackticks_eq_self
  intro c hc
  rw [show (String.mk (serChars (Json.arr xs))).toList = serChars (Json.arr xs) from rfl,
      hmid, getLast?_bracket_nil] at hc
  simp only [Option.mem_def, Option.some.injEq] at hc
  subst hc
  decide

theorem fenceStripped_plain (xs : List Json) (hbt : '`' ∉ serChars (Json.arr xs)) :
    fenceStripped (serialize (Json.arr xs)) = serialize (Json.arr xs) := by
  unfold fenceStripped
  rw [show (serialize (Json.arr xs)).toList = serChars (Json.arr xs) from rfl,
      stripFences_id _ hbt, pyStrip_mk_serArr, rstrip_mk_serArr, pyStrip_mk_serArr]
  rfl

theorem fenceStripped_fenced (xs : List Json) (hbt : '`' ∉ serChars (Json.arr xs)) :
    fenceStripped ("```json\n" ++ serialize (Json.arr xs) ++ "\n```")
      = serialize (Json.arr xs) := by
  obtain ⟨mid, hmid⟩ := serChars_arr_shape xs
  unfold fenceStripped
  rw [show ("```json\n" ++ serialize (Json.arr xs) ++ "\n```").toList
      = '`' :: '`' :: '`' :: 'j' :: 's' :: 'o' :: 'n' :: '\n'
        :: (serChars (Json.arr xs) ++ ['\n', '`', '`', '`']) from by
    rw [show ("```json\n" ++ serialize (Json.arr xs) ++ "\n```").toList
        = ("```json\n" ++ serialize (Json.arr xs)).toList ++ "\n```".toList from
      String.data_append _ _]
    rw [show ("```json\n" ++ serialize (Json.arr xs)).toList
        = "```json\n".toList ++ (serialize (Json.arr xs)).toList from String.data_append _ _]
    rw [show "```json\n".toList = ['`', '`', '`', 'j', 's', 'o', 'n', '\n'] from rfl,
      show "\n```".toList = ['\n', '`', '`', '`'] from rfl,
      show (serialize (Json.arr xs)).toList = serChars (Json.arr xs) from rfl]
    simp]
  rw [stripFences.eq_1, stripFences_append_no_bt _ _ hbt,
    show stripFences ['\n', '`', '`', '`'] = ['\n'] from by decide]
  rw [show pyStrip (String.mk (serChars (Json.arr xs) ++ ['\n']))
      = String.mk (serChars (Json.arr xs)) from by
    unfold pyStrip
    rw [show (String.mk (serChars (Json.arr xs) ++ ['\n'])).toList
        = serChars (Json.arr xs) ++ ['\n'] from rfl]
    rw [show serChars (Json.arr xs) ++ ['\n'] = '[' :: ((mid ++ [']']) ++ ['\n']) from by
      rw [hmid]; simp]
    rw [stripChars_bracket_nl, ← hmid]]
  rw [rstrip_mk_serArr, pyStrip_mk_serArr]
  rfl

theorem fenceStripped_prose (xs : List Json) (prose : String)
    (hbt : '`' ∉ serChars (Json.arr xs)) (hpb : '`' ∉ prose.toList) :
    fenceStripped (prose ++ serialize (Json.arr xs))
      = String.mk (prose.toList.dropWhile pyWs ++ serChars (Json.arr xs)) := by
  obtain ⟨mid, hmid⟩ := serChars_arr_shape xs
  unfold fenceStripped
  rw [show (prose ++ serialize (Json.arr xs)).toList
      = prose.toList ++ serChars (Json.arr xs) from String.data_append _ _]
  rw [stripFences_append_no_bt _ _ hpb, stripFences_id _ hbt]
  rw [show pyStrip (String.mk (prose.toList ++ serChars (Json.arr xs)))
      = String.mk (prose.toList.dropWhile pyWs ++ serChars (Json.arr xs)) from by
    unfold pyStrip
    rw [show (String.mk (prose.toList ++ serChars (Json.arr xs))).toList
        = prose.toList ++ serChars (Json.arr xs) from rfl, hmid, stripChars_bracket]]
  rw [show rstripBackticks (String.mk (prose.toList.dropWhile pyWs ++ serChars (Json.arr xs)))
      = String.mk (prose.toList.dropWhile pyWs ++ serChars (Json.arr xs)) from by
    apply rstripBackticks_eq_self
    intro c hc
    rw [show (String.mk (prose.toList.dropWhile pyWs ++ serChars (Json.arr xs))).toList
        = prose.toList.dropWhile pyWs ++ serChars (Json.arr xs) from rfl,
      hmid, getLast?_bracket] at hc
    simp only [Option.mem_def, Option.some.injEq] at hc
    subst hc
    decide]
  unfold pyStrip
  rw [show (String.mk (prose.toList.dropWhile pyWs ++ serChars (Json.arr xs))).toList
      = prose.toList.dropWhile pyWs ++ serChars (Json.arr xs) from rfl, hmid,
    stripChars_bracket, List.dropWhile_idempotent]

theorem parse_ok_direct (xs : List Json) (text : String)
    (h : fenceStripped text = serialize (Json.arr xs)) :
    parse_json_response text = Except.ok (Json.arr xs) := by
  simp only [parse_json_response, h, json_loads_serialize]

theorem parse_ok_fallback (xs : List Json) (text : String)
    (hnone : json_loads (fenceStripped text) = none)
    (hbs : bracketSlice (fenceStripped text).toList = some (serChars (Json.arr xs))) :
    parse_json_response text = Except.ok (Json.arr xs) := by
  have hjl : json_loads (String.mk (serChars (Json.arr xs))) = some (Json.arr xs) :=
    json_loads_serialize (Json.arr xs)
  simp only [parse_json_response, hnone, hbs, hjl]

/-- C7: amended JSON extraction round trip. For any array X of objects whose
serialization contains no backtick, `parse_json_response` recovers X from the
plain serialization, from the serialization wrapped in triple-backtick fences
with a leading `json` tag, and from the serialization preceded by prose that
contains no backtick and no opening bracket and whose combination with the
serialization does not parse directly (prose forces the bracket fallback, which
recovers only the array). The backtick restriction is necessary:
fence-stripping deletes backtick runs inside JSON string content (see the
counterexample). -/
theorem parse_json_response_round_trip (xs : List Json) (prose : String)
    (hobj : ∀ x ∈ xs, x.isObj = true)
    (hbt : '`' ∉ serChars (Json.arr xs))
    (hpb : '`' ∉ prose.toList)
    (hpk : '[' ∉ prose.toList)
    (hfail : json_loads (fenceStripped (prose ++ serialize (Json.arr xs))) = none) :
    parse_json_response (serialize (Json.arr xs)) = Except.ok (Json.arr xs) ∧
    parse_json_response ("```json\n" ++ serialize (Json.arr xs) ++ "\n```")
      = Except.ok (Json.arr xs) ∧
    parse_json_response (prose ++ serialize (Json.arr xs)) = Except.ok (Json.arr xs) := by
  refine ⟨parse_ok_direct xs _ (fenceStripped_plain xs hbt),
          parse_ok_direct xs _ (fenceStripped_fenced xs hbt),
          parse_ok_fallback xs _ hfail ?_⟩
  obtain ⟨mid, hmid⟩ := serChars_arr_shape xs
  have hq : '[' ∉ prose.toList.dropWhile pyWs := by
    intro hmem
    obtain ⟨u, hu⟩ := List.dropWhile_suffix (l := prose.toList) pyWs
    exact hpk (hu ▸ List.mem_append_right u hmem)
  rw [fenceStripped_prose xs prose hbt hpb,
    show (String.mk (prose.toList.dropWhile pyWs ++ serChars (Json.arr xs))).toList
      = prose.toList.dropWhile pyWs ++ serChars (Json.arr xs) from rfl, hmid,
    bracketSlice_shape _ mid hq]

/-- C7 counterexample: the round trip fails without the backtick restriction.
For X = [{"a": "```"}] the fence-stripping regex deletes the three backticks
inside the JSON string literal, so `parse_json_response (serialize X)` returns
the different array [{"a": ""}] rather than X. -/
theorem parse_json_response_round_trip_counterexample :
    (∀ x ∈ [Json.obj [("a", Json.str "```")]], x.isObj = true) ∧
    parse_json_response (serialize (Json.arr [Json.obj [("a", Json.str "```")]]))
      = Except.ok (Json.arr [Json.obj [("a", Json.str "")]]) ∧
    Json.arr [Json.obj [("a", Json.str "")]] ≠ Json.arr [Json.obj [("a", Json.str "```")]] :=
  ⟨by decide, by decide, by decide⟩

theorem parse_json_response_round_trip_witness :
    ((∀ x ∈ [Json.obj [("q", Json.str "hi")]], x.isObj = true) ∧
     '`' ∉ serChars (Json.arr [Json.obj [("q", Json.str "hi")]]) ∧
     '`' ∉ "Here you go: ".toList ∧
     '[' ∉ "Here you go: ".toList ∧
     json_loads (fenceStripped ("Here you go: "
       ++ serialize (Json.arr [Json.obj [("q", Json.str "hi")]]))) = none) ∧
    (parse_json_response (serialize (Json.arr [Json.obj [("q", Json.str "hi")]]))
       = Except.ok (Json.arr [Json.obj [("q", Json.str "hi")]]) ∧
     parse_json_response ("```json\n"
         ++ serialize (Json.arr [Json.obj [("q", Json.str "hi")]]) ++ "\n```")
       = Except.ok (Json.arr [Json.obj [("q", Json.str "hi")]]) ∧
     parse_json_response ("Here you go: "
         ++ serialize (Json.arr [Json.obj [("q", Json.str "hi")]]))
       = Except.ok (Json.arr [Json.obj [("q", Json.str "hi")]])) :=
  ⟨⟨by decide, by decide, by decide, by decide, by decide⟩,
   parse_json_response_round_trip [Json.obj [("q", Json.str "hi")]] "Here you go: "
     (by decide) (by decide) (by decide) (by decide) (by decide)⟩
